import Mathlib

/-!
Verification of the planning core of `django-migrate-sql` (files
`migrate_sql/graph.py` and `migrate_sql/autodetector.py`).

The Python code is shallowly embedded: dictionaries become association
lists (insertion ordered, overwriting assignment keeps the position, as
CPython dicts do), Python sets become duplicate-free lists where the
membership tests of the source are the only observable operations,
SQL payloads become an explicit inductive `Sql` capturing the shapes the
source compares with `==` (raw string, or an ordered list of
(statement, params) items where the params container is a list or a
tuple, which `==` distinguishes), and raising code returns `Except`.

Django's `Node` ancestors/descendants traversal is not part of the
repository; it is modelled from the spec where marked.
-/

set_option linter.unusedVariables false

namespace MigrateSql

/-- Application label (the owning namespace of a construct). -/
abbrev Label := String

/-- A construct key: `(app_label, name)`, unique within one snapshot. -/
abbrev Key := String × String

/-- Positional parameters attached to one SQL statement.  Python allows
the container to be absent, a list, or a tuple; Python `==` distinguishes
a list from a tuple even when the iterated values coincide. -/
inductive Params where
  | pnone
  | plist (xs : List String)
  | ptuple (xs : List String)
deriving DecidableEq

/-- An SQL payload as accepted by Django's `RunSQL`: absent, a raw
string, or an ordered sequence of (statement, params) items. -/
inductive Sql where
  | none
  | raw (s : String)
  | items (xs : List (String × Params))
deriving DecidableEq

/-- Python truthiness of a payload, used by `if old_node.reverse_sql:`. -/
def Sql.truthy : Sql → Bool
  | .none => false
  | .raw s => s ≠ ""
  | .items xs => xs ≠ []

/-- `SqlItemNode = namedtuple('SqlItemNode', ('sql', 'reverse_sql'))`. -/
structure SqlItemNode where
  sql : Sql
  reverse_sql : Sql
deriving DecidableEq

/-- Dictionary lookup (`m[k]` / `m.get(k)`) on an association list. -/
def dget {α β : Type} [DecidableEq α] (m : List (α × β)) (k : α) : Option β :=
  match m with
  | [] => Option.none
  | (a, b) :: t => if a = k then some b else dget t k

/-- Dictionary assignment `m[k] = v`: overwrites in place (keeping the
entry's position) when the key exists, appends otherwise. -/
def dset {α β : Type} [DecidableEq α] (m : List (α × β)) (k : α) (v : β) :
    List (α × β) :=
  match m with
  | [] => [(k, v)]
  | (a, b) :: t => if a = k then (k, v) :: t else (a, b) :: dset t k v

/-- Dictionary deletion `del m[k]`. -/
def derase {α β : Type} [DecidableEq α] (m : List (α × β)) (k : α) :
    List (α × β) :=
  match m with
  | [] => []
  | (a, b) :: t => if a = k then derase t k else (a, b) :: derase t k

/-- The edge record Django's `Node(key)` carries: a set of parent keys
and a set of child keys.  (Django nodes hash and compare by their key,
so a set of nodes is observably a set of keys.) -/
structure GNode where
  parents : List Key := []
  children : List Key := []
deriving DecidableEq

/-- Python `set.add`: no-op when present, insert otherwise. -/
def addToSet (k : Key) (s : List Key) : List Key :=
  if k ∈ s then s else s ++ [k]

/-- The fresh edge record `Node(key)` starts with. -/
def nodeEmpty : GNode := { parents := [], children := [] }

/-- `SqlStateGraph`: construct map `nodes`, edge map `node_map`, and the
pending lazy dependency declarations `(app_label, child, parent)`. -/
structure SqlStateGraph where
  nodes : List (Key × SqlItemNode) := []
  node_map : List (Key × GNode) := []
  dependencies : List (Label × Key × Key) := []
deriving DecidableEq

/-- `SqlStateGraph.remove_node`: deletes the key from both maps when it
is present in both, otherwise changes nothing; `dependencies` is never
touched. -/
def remove_node (g : SqlStateGraph) (k : Key) : SqlStateGraph :=
  if (dget g.nodes k).isSome ∧ (dget g.node_map k).isSome then
    { g with nodes := derase g.nodes k, node_map := derase g.node_map k }
  else g

/-- `SqlStateGraph.add_node`: unconditionally assigns a fresh `Node` in
`node_map` and the construct in `nodes` (dict assignment, so an existing
key is overwritten, not rejected). -/
def add_node (g : SqlStateGraph) (k : Key) (sql_item : SqlItemNode) :
    SqlStateGraph :=
  { g with node_map := dset g.node_map k nodeEmpty, nodes := dset g.nodes k sql_item }

/-- `SqlStateGraph.add_lazy_dependency`. -/
def add_lazy_dependency (g : SqlStateGraph) (app_label : Label)
    (child parent : Key) : SqlStateGraph :=
  { g with dependencies := g.dependencies ++ [(app_label, child, parent)] }

/-- Errors raised by the planning core.  `missingChild`/`missingParent`
embed `NodeNotFoundError` as raised by `resolve_dependencies`, carrying
the requesting app label and the absent key; `cyclicDependency` embeds
the abort of a cyclic traversal. -/
inductive SqlErr where
  | missingChild (app : Label) (k : Key)
  | missingParent (app : Label) (k : Key)
  | cyclicDependency
deriving DecidableEq

instance exceptDecEq {ε α : Type} [DecidableEq ε] [DecidableEq α] :
    DecidableEq (Except ε α) := fun x y =>
  match x, y with
  | .error a, .error b =>
    if h : a = b then isTrue (by rw [h])
    else isFalse (by intro hc; injection hc with hc; exact h hc)
  | .ok a, .ok b =>
    if h : a = b then isTrue (by rw [h])
    else isFalse (by intro hc; injection hc with hc; exact h hc)
  | .error a, .ok b => isFalse (by intro hc; exact Except.noConfusion hc)
  | .ok a, .error b => isFalse (by intro hc; exact Except.noConfusion hc)

/-- `node_map[child].add_parent(node_map[parent])`, keyed form. -/
def addParentEdge (m : List (Key × GNode)) (c p : Key) : List (Key × GNode) :=
  match dget m c with
  | some n => dset m c { n with parents := addToSet p n.parents }
  | Option.none => m

/-- `node_map[parent].add_child(node_map[child])`, keyed form. -/
def addChildEdge (m : List (Key × GNode)) (p c : Key) : List (Key × GNode) :=
  match dget m p with
  | some n => dset m p { n with children := addToSet c n.children }
  | Option.none => m

/-- One resolved declaration: link parent and child in both nodes. -/
def linkDep (m : List (Key × GNode)) (c p : Key) : List (Key × GNode) :=
  addChildEdge (addParentEdge m c p) p c

/-- The loop body of `resolve_dependencies`, over the remaining pending
declarations. -/
def resolveAux : List (Label × Key × Key) → SqlStateGraph →
    Except SqlErr SqlStateGraph
  | [], g => .ok g
  | (app, c, p) :: rest, g =>
    if (dget g.nodes c).isNone then .error (.missingChild app c)
    else if (dget g.nodes p).isNone then .error (.missingParent app p)
    else resolveAux rest { g with node_map := linkDep g.node_map c p }

/-- `SqlStateGraph.resolve_dependencies`: for every pending declaration,
checks both referenced keys against `nodes` (raising `NodeNotFoundError`
naming the app and the absent key), then links parent and child in both
`node_map` entries. -/
def resolve_dependencies (g : SqlStateGraph) : Except SqlErr SqlStateGraph :=
  resolveAux g.dependencies g

/-- Parent keys of `k` in an edge map (empty when `k` is unregistered). -/
def parentsOf (m : List (Key × GNode)) (k : Key) : List Key :=
  ((dget m k).getD nodeEmpty).parents

/-- Child keys of `k` in an edge map (empty when `k` is unregistered). -/
def childrenOf (m : List (Key × GNode)) (k : Key) : List Key :=
  ((dget m k).getD nodeEmpty).children

/-- Effectful map over a list, short-circuiting on the first error. -/
def mapE {α β : Type} (f : α → Except SqlErr β) : List α →
    Except SqlErr (List β)
  | [] => .ok []
  | a :: t =>
    match f a with
    | .error e => .error e
    | .ok b =>
      match mapE f t with
      | .error e => .error e
      | .ok bs => .ok (b :: bs)

/-- Concatenation of a list of key lists. -/
def flat (ls : List (List Key)) : List Key := ls.foldr (· ++ ·) []

/-- Duplicate removal keeping the first occurrence (`OrderedSet`). -/
def dedupAux (seen : List Key) : List Key → List Key
  | [] => []
  | k :: t => if k ∈ seen then dedupAux seen t else k :: dedupAux (k :: seen) t

/-- Duplicate removal keeping the first occurrence (`OrderedSet`). -/
def dedupKeys (l : List Key) : List Key := dedupAux [] l

/-- Modelled from the spec: Django's `Node.ancestors` traversal (the
`Node` class lives in Django, outside this repository).  Plain recursive
reachability over parent edges producing a list that ends with the key
itself, each parent contributing its own ancestor list before it; a key
already on the current traversal path aborts with `CyclicDependency`
(the spec's recommended guard), as does fuel exhaustion. -/
def ancestorsAux (m : List (Key × GNode)) : Nat → List Key → Key →
    Except SqlErr (List Key)
  | 0, _, _ => .error .cyclicDependency
  | fuel + 1, path, k =>
    if k ∈ path then .error .cyclicDependency
    else
      match mapE (fun p => ancestorsAux m fuel (k :: path) p) (parentsOf m k) with
      | .error e => .error e
      | .ok ls => .ok (flat ls ++ [k])

/-- Modelled from the spec: Django's `Node.descendants`, the mirror of
`ancestorsAux` over child edges; the produced list ends with the key
itself (so that the source's `[:-1]` drops exactly the key), further
descendants appearing before nearer ones. -/
def descendantsAux (m : List (Key × GNode)) : Nat → List Key → Key →
    Except SqlErr (List Key)
  | 0, _, _ => .error .cyclicDependency
  | fuel + 1, path, k =>
    if k ∈ path then .error .cyclicDependency
    else
      match mapE (fun c => descendantsAux m fuel (k :: path) c) (childrenOf m k) with
      | .error e => .error e
      | .ok ls => .ok (flat ls ++ [k])

/-- `node.ancestors()` with deduplication, on a whole graph. -/
def ancestors (g : SqlStateGraph) (k : Key) : Except SqlErr (List Key) :=
  match ancestorsAux g.node_map (g.node_map.length + 1) [] k with
  | .error e => .error e
  | .ok l => .ok (dedupKeys l)

/-- `node.descendants()` with deduplication, on a whole graph. -/
def descendants (g : SqlStateGraph) (k : Key) : Except SqlErr (List Key) :=
  match descendantsAux g.node_map (g.node_map.length + 1) [] k with
  | .error e => .error e
  | .ok l => .ok (dedupKeys l)

/-- `l.insert(i, x)`: Python list insertion (appends when `i ≥ length`). -/
def linsert : List Key → Nat → Key → List Key
  | l, 0, k => k :: l
  | [], _ + 1, k => [k]
  | a :: t, i + 1, k => a :: linsert t i k

/-- `next((i for i, k in enumerate(result_keys) if k in ancs), len(result_keys))`:
the first index of `res` holding a member of `ancs`, or `res.length`. -/
def findPos (res : List Key) (ancs : List Key) : Nat :=
  match res with
  | [] => 0
  | x :: t => if x ∈ ancs then 0 else findPos t ancs + 1

/-- The mutable state of `sort_sql_changes`: the result list under
construction and the (growing) `changed_keys` working set. -/
structure SortState where
  result : List Key
  changed : List Key
deriving DecidableEq

/-- The body of the cascading loop of `sort_sql_changes`: a descendant
not in `all_keys` and not yet in the result is inserted at the fixed
position `pos` and recorded in `changed_keys`. -/
def cascadeStep (allKeys : List Key) (pos : Nat) (acc : SortState) (d : Key) :
    SortState :=
  if d ∉ allKeys ∧ d ∉ acc.result then
    { result := linsert acc.result pos d, changed := addToSet d acc.changed }
  else acc

/-- One iteration of the main loop of `sort_sql_changes`: insert `k`
immediately before its first already-placed proper ancestor (or at the
end), then, when `k` is in `changed_keys`, run the cascading loop over
`reversed(node.descendants()[:-1])` at the same position. -/
def sortStep (g : SqlStateGraph) (allKeys : List Key) (st : SortState)
    (k : Key) : Except SqlErr SortState :=
  match ancestors g k with
  | .error e => .error e
  | .ok ancsFull =>
    let ancs := (ancsFull.dropLast).reverse
    let pos := findPos st.result ancs
    let res1 := linsert st.result pos k
    if k ∈ st.changed then
      match descendants g k with
      | .error e => .error e
      | .ok descsFull =>
        .ok (((descsFull.dropLast).reverse).foldl (cascadeStep allKeys pos)
          ⟨res1, st.changed⟩)
    else .ok ⟨res1, st.changed⟩

/-- Effectful left fold, short-circuiting on the first error. -/
def foldlE {σ α : Type} (f : σ → α → Except SqlErr σ) : σ → List α →
    Except SqlErr σ
  | s, [] => .ok s
  | s, a :: t =>
    match f s a with
    | .error e => .error e
    | .ok s' => foldlE f s' t

/-- `new_keys | changed_keys` as an iteration list. -/
def unionKeys (a b : List Key) : List Key := a ++ b.filter (fun k => k ∉ a)

/-- `MigrationAutodetector.sort_sql_changes` over the `to` graph;
returns the plan order together with the grown `changed_keys`. -/
def sort_sql_changes (g : SqlStateGraph) (new_keys changed_keys : List Key) :
    Except SqlErr SortState :=
  foldlE (sortStep g (unionKeys new_keys changed_keys))
    ⟨[], changed_keys⟩ (unionKeys new_keys changed_keys)

/-- Whether the construct payloads of `k` count as changed: the source
compares only the forward `sql` members with Python `==`. -/
def sqlChangedAt (fromG toG : SqlStateGraph) (k : Key) : Bool :=
  match dget fromG.nodes k, dget toG.nodes k with
  | some fi, some ti => fi.sql ≠ ti.sql
  | _, _ => false

/-- Keys present in both snapshots (`from_keys & to_keys`). -/
def bothKeys (fromG toG : SqlStateGraph) : List Key :=
  (fromG.nodes.map Prod.fst).filter (fun k => (dget toG.nodes k).isSome)

/-- The initial `changed_keys` set of `generate_changed_sql`. -/
def changedKeys0 (fromG toG : SqlStateGraph) : List Key :=
  (bothKeys fromG toG).filter (sqlChangedAt fromG toG)

/-- `new_keys = to_keys - from_keys`. -/
def newKeysOf (fromG toG : SqlStateGraph) : List Key :=
  (toG.nodes.map Prod.fst).filter (fun k => (dget fromG.nodes k).isNone)

/-- `deleted_keys = from_keys - to_keys`. -/
def deletedKeysOf (fromG toG : SqlStateGraph) : List Key :=
  (fromG.nodes.map Prod.fst).filter (fun k => (dget toG.nodes k).isNone)

/-- Action tags of the emitted operations. -/
inductive OpKind where
  | createSQL
  | alterSQL
  | reverseAlterSQL
  | deleteSQL
deriving DecidableEq

/-- Modelled from the spec: one operation object of `migrate_sql.operations`
(that module is not under the provided sources).  Per the spec a plan
step carries an action tag, the key, and forward/reverse payloads; the
object's identity is represented by its index in the creation arena. -/
structure Operation where
  kind : OpKind
  app_label : Label
  sql_name : String
  sql : Sql
  reverse_sql : Sql
deriving DecidableEq

/-- A dependency marker attached to an emitted step: either this core's
`(app_label, SQL_BLOB, name, latest-operation-or-None)` tuple — the
recorded operation represented by its arena index — or an ordinary host
dependency, passed through unchanged (payload left opaque). -/
inductive DepMarker where
  | sqlBlob (app : Label) (sql_name : String) (info : Option Nat)
  | host (payload : Nat)
deriving DecidableEq

/-- One `add_operation` call: the target app, the operation (by arena
index) and its dependency markers. -/
structure Step where
  app_label : Label
  opId : Nat
  deps : List DepMarker
deriving DecidableEq

/-- The state threaded through the three emission passes.  The graphs
are threaded explicitly because the source mutates their node edge sets
in place (`sql_deps = node_map[key].children; sql_deps.add(key)`). -/
structure EmitState where
  fromG : SqlStateGraph
  toG : SqlStateGraph
  ops : List Operation
  steps : List Step
  latest : List (Key × Nat)
deriving DecidableEq

/-- One iteration of the teardown pass of `generate_changed_sql`: keys
outside `changed_keys` are skipped; otherwise a `ReverseAlterSQL`
operation over the old payloads is created, the key is added (in place)
to its own `from`-graph children set, markers are built from that set
against `latest_operations`, the operation is emitted only when the old
`reverse_sql` is truthy, and `latest_operations[key]` is recorded
unconditionally. -/
def teardownStep (changed : List Key) (st : EmitState) (k : Key) : EmitState :=
  if k ∈ changed then
    match dget st.fromG.nodes k with
    | Option.none => st
    | some old =>
      let op : Operation :=
        { kind := .reverseAlterSQL, app_label := k.1, sql_name := k.2,
          sql := old.reverse_sql, reverse_sql := old.sql }
      let node := (dget st.fromG.node_map k).getD nodeEmpty
      let newChildren := addToSet k node.children
      let fromG' := { st.fromG with
        node_map := dset st.fromG.node_map k { node with children := newChildren } }
      let deps := newChildren.map (fun d => DepMarker.sqlBlob d.1 d.2 (dget st.latest d))
      let opId := st.ops.length
      { fromG := fromG', toG := st.toG, ops := st.ops ++ [op],
        steps := if old.reverse_sql.truthy
          then st.steps ++ [{ app_label := k.1, opId := opId, deps := deps }]
          else st.steps,
        latest := dset st.latest k opId }
  else st

/-- One iteration of the rebuild pass (over `reversed(keys)`): action is
`AlterSQL` for changed keys and `CreateSQL` for new ones, payloads are
the new forward/reverse statements, the key is added (in place) to its
own `to`-graph parents set, markers are built from that set, the
operation is always emitted, and `latest_operations[key]` is updated. -/
def rebuildStep (changed : List Key) (st : EmitState) (k : Key) : EmitState :=
  match dget st.toG.nodes k with
  | Option.none => st
  | some newNode =>
    let op : Operation :=
      { kind := if k ∈ changed then .alterSQL else .createSQL,
        app_label := k.1, sql_name := k.2,
        sql := newNode.sql, reverse_sql := newNode.reverse_sql }
    let node := (dget st.toG.node_map k).getD nodeEmpty
    let newParents := addToSet k node.parents
    let toG' := { st.toG with
      node_map := dset st.toG.node_map k { node with parents := newParents } }
    let deps := newParents.map (fun d => DepMarker.sqlBlob d.1 d.2 (dget st.latest d))
    let opId := st.ops.length
    { fromG := st.fromG, toG := toG', ops := st.ops ++ [op],
      steps := st.steps ++ [{ app_label := k.1, opId := opId, deps := deps }],
      latest := dset st.latest k opId }

/-- One iteration of the deletion pass: emit a `DeleteSQL` whose forward
payload is the old reverse statement and vice versa, with no markers. -/
def deleteStep (st : EmitState) (k : Key) : EmitState :=
  match dget st.fromG.nodes k with
  | Option.none => st
  | some old =>
    let op : Operation :=
      { kind := .deleteSQL, app_label := k.1, sql_name := k.2,
        sql := old.reverse_sql, reverse_sql := old.sql }
    { st with
      ops := st.ops ++ [op],
      steps := st.steps ++ [{ app_label := k.1, opId := st.ops.length, deps := [] }] }

/-- The outcome of `generate_changed_sql`: final emission state (with
the possibly mutated graphs), the plan order, and the grown
`changed_keys`. -/
structure PlanResult where
  state : EmitState
  planOrder : List Key
  changedFinal : List Key
deriving DecidableEq

/-- `MigrationAutodetector.generate_changed_sql`: diff the snapshots,
order the changes, then run the teardown, rebuild and deletion passes. -/
def generate_changed_sql (fromG toG : SqlStateGraph) :
    Except SqlErr PlanResult :=
  match sort_sql_changes toG (newKeysOf fromG toG) (changedKeys0 fromG toG) with
  | .error e => .error e
  | .ok sorted =>
    let st0 : EmitState :=
      { fromG := fromG, toG := toG, ops := [], steps := [], latest := [] }
    let st1 := sorted.result.foldl (teardownStep sorted.changed) st0
    let st2 := (sorted.result.reverse).foldl (rebuildStep sorted.changed) st1
    let st3 := (deletedKeysOf fromG toG).foldl deleteStep st2
    .ok { state := st3, planOrder := sorted.result, changedFinal := sorted.changed }

/-- `MigrationAutodetector.check_dependency`: a marker of the SQL-blob
kind is satisfied exactly when its recorded operation is the candidate
operation itself (object identity, i.e. equal arena index); any other
marker falls through to the host's generic rule. -/
def check_dependency (hostRule : Nat → Nat → Bool) (operation : Nat)
    (dep : DepMarker) : Bool :=
  match dep with
  | .sqlBlob _ _ info => info = some operation
  | .host payload => hostRule payload operation

/-! ### Basic lemmas about the dictionary and set model -/

theorem dget_dset_self {α β : Type} [DecidableEq α] (m : List (α × β))
    (k : α) (v : β) : dget (dset m k v) k = some v := by
  induction m with
  | nil => simp [dget, dset]
  | cons hd t ih =>
    obtain ⟨a, b⟩ := hd
    by_cases h : a = k
    · simp [dget, dset, h]
    · simp [dget, dset, h, ih]

theorem dget_dset_ne {α β : Type} [DecidableEq α] (m : List (α × β))
    (k k' : α) (v : β) (h : k' ≠ k) :
    dget (dset m k v) k' = dget m k' := by
  have hk : k ≠ k' := Ne.symm h
  induction m with
  | nil => simp [dget, dset, hk]
  | cons hd t ih =>
    obtain ⟨a, b⟩ := hd
    by_cases ha : a = k
    · subst ha
      simp [dget, dset, hk]
    · by_cases ha' : a = k'
      · simp [dget, dset, ha, ha', h]
      · simp [dget, dset, ha, ha', ih]

theorem dset_of_dget_none {α β : Type} [DecidableEq α] (m : List (α × β))
    (k : α) (v : β) (h : dget m k = Option.none) :
    dset m k v = m ++ [(k, v)] := by
  induction m with
  | nil => simp [dset]
  | cons hd t ih =>
    obtain ⟨a, b⟩ := hd
    by_cases ha : a = k
    · simp [dget, ha] at h
    · simp [dget, ha] at h
      simp [dset, ha, ih h]

theorem mem_addToSet (k x : Key) (s : List Key) :
    x ∈ addToSet k s ↔ x = k ∨ x ∈ s := by
  unfold addToSet
  by_cases h : k ∈ s
  · simp only [if_pos h]
    constructor
    · exact fun hx => Or.inr hx
    · rintro (rfl | hx)
      · exact h
      · exact hx
  · simp [if_neg h, or_comm]

theorem addToSet_idem (k : Key) (s : List Key) :
    addToSet k (addToSet k s) = addToSet k s := by
  unfold addToSet
  by_cases h : k ∈ s
  · simp [h]
  · simp [h]

/-! ### Claim theorems C10, C6, C8 -/

/-- Claim C10 (confirmed): `remove_node` never raises; when the key is
present in both maps it deletes the entry from both, otherwise it leaves
the whole graph unchanged, and the pending dependency list is untouched
in every case. -/
theorem c10_remove_node_frame (g : SqlStateGraph) (k : Key) :
    (((dget g.nodes k).isSome ∧ (dget g.node_map k).isSome) →
      remove_node g k =
        { g with nodes := derase g.nodes k, node_map := derase g.node_map k }) ∧
    ((¬ ((dget g.nodes k).isSome ∧ (dget g.node_map k).isSome)) →
      remove_node g k = g) ∧
    (remove_node g k).dependencies = g.dependencies := by
  refine ⟨?_, ?_, ?_⟩
  · intro h
    simp [remove_node, h]
  · intro h
    simp only [remove_node, if_neg h]
  · unfold remove_node
    by_cases h : (dget g.nodes k).isSome ∧ (dget g.node_map k).isSome
    · simp [h]
    · simp [h]

/-- The empty snapshot (`SqlStateGraph()`). -/
def emptyGraph : SqlStateGraph := { nodes := [], node_map := [], dependencies := [] }

/-- Example graph for the C10 witness: one registered construct. -/
def exG10 : SqlStateGraph :=
  add_node emptyGraph ("app", "v") { sql := .raw "S", reverse_sql := .raw "R" }

/-- Witness for C10 at a concrete graph: the key is present in both
maps and `remove_node` deletes it from both. -/
theorem c10_witness :
    ((dget exG10.nodes ("app", "v")).isSome ∧
      (dget exG10.node_map ("app", "v")).isSome) ∧
    remove_node exG10 ("app", "v") =
      { exG10 with
        nodes := derase exG10.nodes ("app", "v"),
        node_map := derase exG10.node_map ("app", "v") } :=
  ⟨by decide, (c10_remove_node_frame exG10 ("app", "v")).1 (by decide)⟩

/-- Construct payloads used in the C6 example. -/
def c6ItemA : SqlItemNode := { sql := .raw "A", reverse_sql := .raw "RA" }

/-- Construct payloads used in the C6 example. -/
def c6ItemB : SqlItemNode := { sql := .raw "B", reverse_sql := .raw "RB" }

/-- Claim C6 counterexample: registering the same key twice does not
fail and does not abort construction — `add_node` is a plain dict
assignment, so the second registration succeeds and overwrites the
first construct (and resets the node), leaving exactly one entry. -/
theorem c6_counterexample :
    (add_node (add_node emptyGraph ("app", "v") c6ItemA) ("app", "v") c6ItemB).nodes =
      [(("app", "v"), c6ItemB)] ∧
    (add_node (add_node emptyGraph ("app", "v") c6ItemA) ("app", "v") c6ItemB).node_map =
      [(("app", "v"), nodeEmpty)] := by
  constructor <;> rfl

/-- Claim C6 (corrected): `add_node` never fails.  Registering a fresh
key appends exactly one construct entry and one graph node; registering
an existing key overwrites both entries in place instead of raising,
and the pending dependency list is never touched. -/
theorem c6_add_node_amended (g : SqlStateGraph) (k : Key) (it : SqlItemNode) :
    ((dget g.nodes k = Option.none ∧ dget g.node_map k = Option.none) →
      (add_node g k it).nodes = g.nodes ++ [(k, it)] ∧
      (add_node g k it).node_map = g.node_map ++ [(k, nodeEmpty)]) ∧
    dget (add_node g k it).nodes k = some it ∧
    dget (add_node g k it).node_map k = some nodeEmpty ∧
    (∀ k', k' ≠ k →
      dget (add_node g k it).nodes k' = dget g.nodes k' ∧
      dget (add_node g k it).node_map k' = dget g.node_map k') ∧
    (add_node g k it).dependencies = g.dependencies := by
  refine ⟨?_, ?_, ?_, ?_, rfl⟩
  · rintro ⟨h1, h2⟩
    exact ⟨dset_of_dget_none g.nodes k it h1,
      dset_of_dget_none g.node_map k nodeEmpty h2⟩
  · exact dget_dset_self g.nodes k it
  · exact dget_dset_self g.node_map k nodeEmpty
  · intro k' hk
    exact ⟨dget_dset_ne g.nodes k k' it hk,
      dget_dset_ne g.node_map k k' nodeEmpty hk⟩

/-- Witness for C6 at a concrete graph: adding a fresh key to the empty
graph appends exactly one entry to each map. -/
theorem c6_witness :
    (dget (SqlStateGraph.nodes {}) ("app", "v") = Option.none ∧
      dget (SqlStateGraph.node_map {}) ("app", "v") = Option.none) ∧
    ((add_node {} ("app", "v") c6ItemA).nodes =
        SqlStateGraph.nodes {} ++ [(("app", "v"), c6ItemA)] ∧
      (add_node {} ("app", "v") c6ItemA).node_map =
        SqlStateGraph.node_map {} ++ [(("app", "v"), nodeEmpty)]) :=
  ⟨⟨rfl, rfl⟩, (c6_add_node_amended {} ("app", "v") c6ItemA).1 ⟨rfl, rfl⟩⟩

/-- Claim C8 (confirmed): `check_dependency` treats a marker of the
SQL-blob kind as satisfied exactly when the candidate operation is the
very operation recorded in the marker at emission time (reference
identity, embedded as equality of creation-arena indices), and lets any
other marker kind fall through to the host's generic rule. -/
theorem c8_check_dependency (hostRule : Nat → Nat → Bool) (operation : Nat)
    (app : Label) (sqlName : String) (info : Option Nat) (payload : Nat) :
    (check_dependency hostRule operation (.sqlBlob app sqlName info) = true ↔
      info = some operation) ∧
    check_dependency hostRule operation (.host payload) =
      hostRule payload operation := by
  constructor
  · simp [check_dependency]
  · rfl

/-! ### Claim C1: what the differ actually compares -/

theorem dget_isSome_iff_mem_keys {α β : Type} [DecidableEq α]
    (m : List (α × β)) (k : α) :
    (dget m k).isSome ↔ k ∈ m.map Prod.fst := by
  induction m with
  | nil => simp [dget]
  | cons hd t ih =>
    obtain ⟨a, b⟩ := hd
    by_cases ha : a = k
    · simp [dget, ha]
    · simp only [dget, if_neg ha, List.map_cons, List.mem_cons]
      rw [ih]
      constructor
      · exact fun h => Or.inr h
      · rintro (h | h)
        · exact absurd h.symm ha
        · exact h

/-- Modelled from the spec (§3 equality rule), for comparison against
the source's comparison: parameter equality where a list and a tuple
with the same iterated values compare equal. -/
def specParamsEq : Params → Params → Bool
  | .pnone, .pnone => true
  | .plist xs, .plist ys => xs = ys
  | .plist xs, .ptuple ys => xs = ys
  | .ptuple xs, .plist ys => xs = ys
  | .ptuple xs, .ptuple ys => xs = ys
  | _, _ => false

/-- Modelled from the spec (§3 equality rule): ordered-sequence payload
equality with container-insensitive parameter comparison. -/
def specSqlEq : Sql → Sql → Bool
  | .none, .none => true
  | .raw a, .raw b => a = b
  | .items xs, .items ys =>
    xs.length = ys.length &&
      (xs.zip ys).all (fun p => p.1.1 = p.2.1 && specParamsEq p.1.2 p.2.2)
  | _, _ => false

/-- Modelled from the spec (§3 equality rule): construct equality as the
equality of the forward and reverse payloads together. -/
def specConstructEq (a b : SqlItemNode) : Bool :=
  specSqlEq a.sql b.sql && specSqlEq a.reverse_sql b.reverse_sql

/-- C1 example: equal forward payloads, different reverse payloads. -/
def c1ItemFrom : SqlItemNode := { sql := .raw "S", reverse_sql := .raw "R1" }

/-- C1 example: equal forward payloads, different reverse payloads. -/
def c1ItemTo : SqlItemNode := { sql := .raw "S", reverse_sql := .raw "R2" }

/-- C1 example `from` snapshot. -/
def c1From : SqlStateGraph := add_node emptyGraph ("app", "v") c1ItemFrom

/-- C1 example `to` snapshot. -/
def c1To : SqlStateGraph := add_node emptyGraph ("app", "v") c1ItemTo

/-- C1 example: forward payloads with the same iterated parameter values
in a list container. -/
def c1ItemFromL : SqlItemNode :=
  { sql := .items [("S", .plist ["1"])], reverse_sql := .none }

/-- C1 example: forward payloads with the same iterated parameter values
in a tuple container. -/
def c1ItemToL : SqlItemNode :=
  { sql := .items [("S", .ptuple ["1"])], reverse_sql := .none }

/-- C1 example `from` snapshot, container variant. -/
def c1FromL : SqlStateGraph := add_node emptyGraph ("app", "v") c1ItemFromL

/-- C1 example `to` snapshot, container variant. -/
def c1ToL : SqlStateGraph := add_node emptyGraph ("app", "v") c1ItemToL

/-- Claim C1 counterexample: the claimed equality rule fails twice on
the code.  Two constructs with equal forward but different reverse
payloads are unequal under the claimed rule, yet the key is not marked
changed (the source compares only the forward `sql`, autodetector.py
line 54); and two constructs whose parameter containers differ only in
list-vs-tuple with the same iterated values are equal under the claimed
rule, yet the key is marked changed (Python `==` distinguishes list
from tuple, as the source's own comment on lines 52-53 warns). -/
theorem c1_counterexample :
    (specConstructEq c1ItemFrom c1ItemTo = false ∧
      ("app", "v") ∉ changedKeys0 c1From c1To) ∧
    (specConstructEq c1ItemFromL c1ItemToL = true ∧
      ("app", "v") ∈ changedKeys0 c1FromL c1ToL) := by
  refine ⟨⟨rfl, ?_⟩, ⟨rfl, ?_⟩⟩ <;> decide

/-- Claim C1 (corrected): for a key present in both snapshots, the key
is marked changed iff the two forward `sql` payloads are unequal under
plain structural (Python `==`) equality; the reverse payloads are not
consulted, and a list/tuple parameter-container mismatch alone already
makes the forward payloads unequal. -/
theorem c1_changed_iff_forward (fromG toG : SqlStateGraph) (k : Key)
    (fi ti : SqlItemNode) (hf : dget fromG.nodes k = some fi)
    (ht : dget toG.nodes k = some ti) :
    k ∈ changedKeys0 fromG toG ↔ fi.sql ≠ ti.sql := by
  have hkf : k ∈ fromG.nodes.map Prod.fst :=
    (dget_isSome_iff_mem_keys fromG.nodes k).1 (by simp [hf])
  have hkt : (dget toG.nodes k).isSome := by simp [ht]
  constructor
  · intro hmem
    have := List.of_mem_filter hmem
    simpa [sqlChangedAt, hf, ht] using this
  · intro hne
    refine List.mem_filter.2 ⟨List.mem_filter.2 ⟨hkf, ?_⟩, ?_⟩
    · simpa using hkt
    · simp [sqlChangedAt, hf, ht, hne]

/-- Witness for C1 at the concrete snapshots above: both lookups
succeed and the equivalence evaluates as stated. -/
theorem c1_witness :
    (dget c1From.nodes ("app", "v") = some c1ItemFrom ∧
      dget c1To.nodes ("app", "v") = some c1ItemTo) ∧
    (("app", "v") ∈ changedKeys0 c1From c1To ↔ c1ItemFrom.sql ≠ c1ItemTo.sql) :=
  ⟨⟨by decide, by decide⟩,
    c1_changed_iff_forward c1From c1To ("app", "v") c1ItemFrom c1ItemTo
      (by decide) (by decide)⟩

/-! ### Claim C7: dependency resolution -/

/-- Pointwise growth of a node's edge sets. -/
def nodeLe (n n' : GNode) : Prop :=
  (∀ x ∈ n.parents, x ∈ n'.parents) ∧ (∀ x ∈ n.children, x ∈ n'.children)

/-- Growth of an edge map: same domain, edge sets only grow. -/
def mapLe (m m' : List (Key × GNode)) : Prop :=
  ∀ k, (dget m k = Option.none → dget m' k = Option.none) ∧
    (∀ n, dget m k = some n → ∃ n', dget m' k = some n' ∧ nodeLe n n')

theorem nodeLe_refl (n : GNode) : nodeLe n n :=
  ⟨fun _ hx => hx, fun _ hx => hx⟩

theorem nodeLe_trans {a b c : GNode} (h1 : nodeLe a b) (h2 : nodeLe b c) :
    nodeLe a c :=
  ⟨fun x hx => h2.1 x (h1.1 x hx), fun x hx => h2.2 x (h1.2 x hx)⟩

theorem mapLe_refl (m : List (Key × GNode)) : mapLe m m :=
  fun k => ⟨fun h => h, fun n h => ⟨n, h, nodeLe_refl n⟩⟩

theorem mapLe_trans {a b c : List (Key × GNode)} (h1 : mapLe a b)
    (h2 : mapLe b c) : mapLe a c := by
  intro k
  refine ⟨fun h => (h2 k).1 ((h1 k).1 h), fun n h => ?_⟩
  obtain ⟨n1, hn1, hle1⟩ := (h1 k).2 n h
  obtain ⟨n2, hn2, hle2⟩ := (h2 k).2 n1 hn1
  exact ⟨n2, hn2, nodeLe_trans hle1 hle2⟩

theorem addParentEdge_mapLe (m : List (Key × GNode)) (c p : Key) :
    mapLe m (addParentEdge m c p) := by
  intro k
  unfold addParentEdge
  cases hc : dget m c with
  | none => exact (mapLe_refl m k)
  | some n0 =>
    by_cases hk : k = c
    · subst hk
      refine ⟨fun h => ?_, fun n h => ?_⟩
      · rw [hc] at h
        exact absurd h (by simp)
      · rw [hc] at h
        injection h with h
        subst h
        refine ⟨_, dget_dset_self m k _, ?_, fun x hx => hx⟩
        intro x hx
        exact (mem_addToSet p x n0.parents).2 (Or.inr hx)
    · rw [dget_dset_ne m c k _ hk]
      exact mapLe_refl m k

theorem addChildEdge_mapLe (m : List (Key × GNode)) (p c : Key) :
    mapLe m (addChildEdge m p c) := by
  intro k
  unfold addChildEdge
  cases hp : dget m p with
  | none => exact (mapLe_refl m k)
  | some n0 =>
    by_cases hk : k = p
    · subst hk
      refine ⟨fun h => ?_, fun n h => ?_⟩
      · rw [hp] at h
        exact absurd h (by simp)
      · rw [hp] at h
        injection h with h
        subst h
        refine ⟨_, dget_dset_self m k _, fun x hx => hx, ?_⟩
        intro x hx
        exact (mem_addToSet c x n0.children).2 (Or.inr hx)
    · rw [dget_dset_ne m p k _ hk]
      exact mapLe_refl m k

theorem linkDep_mapLe (m : List (Key × GNode)) (c p : Key) :
    mapLe m (linkDep m c p) :=
  mapLe_trans (addParentEdge_mapLe m c p)
    (addChildEdge_mapLe (addParentEdge m c p) p c)

theorem addParentEdge_establishes (m : List (Key × GNode)) (c p : Key) :
    ∀ n, dget (addParentEdge m c p) c = some n → p ∈ n.parents := by
  intro n h
  unfold addParentEdge at h
  cases hc : dget m c with
  | none =>
    rw [hc] at h
    rw [hc] at h
    exact absurd h (by simp)
  | some n0 =>
    rw [hc] at h
    rw [dget_dset_self] at h
    injection h with h
    subst h
    exact (mem_addToSet p p n0.parents).2 (Or.inl rfl)

theorem linkDep_parent (m : List (Key × GNode)) (c p : Key) :
    ∀ n, dget (linkDep m c p) c = some n → p ∈ n.parents := by
  intro n h
  unfold linkDep at h
  cases h1 : dget (addParentEdge m c p) c with
  | none =>
    have := ((addChildEdge_mapLe (addParentEdge m c p) p c) c).1 h1
    rw [this] at h
    exact absurd h (by simp)
  | some n1 =>
    obtain ⟨n', hn', hle⟩ :=
      ((addChildEdge_mapLe (addParentEdge m c p) p c) c).2 n1 h1
    rw [hn'] at h
    injection h with h
    subst h
    exact hle.1 p (addParentEdge_establishes m c p n1 h1)

theorem linkDep_child (m : List (Key × GNode)) (c p : Key) :
    ∀ n, dget (linkDep m c p) p = some n → c ∈ n.children := by
  intro n h
  unfold linkDep addChildEdge at h
  cases hp : dget (addParentEdge m c p) p with
  | none =>
    rw [hp] at h
    rw [hp] at h
    exact absurd h (by simp)
  | some n0 =>
    rw [hp] at h
    rw [dget_dset_self] at h
    injection h with h
    subst h
    exact (mem_addToSet c c n0.children).2 (Or.inl rfl)

theorem resolveAux_error_of_bad :
    ∀ (deps : List (Label × Key × Key)) (g : SqlStateGraph),
      g.dependencies = g.dependencies →
      (∃ d ∈ deps, (dget g.nodes d.2.1).isNone ∨ (dget g.nodes d.2.2).isNone) →
      ∃ app k', (resolveAux deps g = .error (.missingChild app k') ∨
          resolveAux deps g = .error (.missingParent app k')) ∧
        dget g.nodes k' = Option.none ∧
        ∃ c p, (app, c, p) ∈ deps ∧ (k' = c ∨ k' = p) := by
  intro deps
  induction deps with
  | nil =>
    intro g _ hbad
    obtain ⟨d, hd, _⟩ := hbad
    exact absurd hd (List.not_mem_nil d)
  | cons hd rest ih =>
    obtain ⟨app, c, p⟩ := hd
    intro g _ hbad
    by_cases hc : (dget g.nodes c).isNone
    · refine ⟨app, c, Or.inl ?_, Option.isNone_iff_eq_none.1 hc,
        c, p, List.mem_cons_self _ _, Or.inl rfl⟩
      simp [resolveAux, hc]
    · by_cases hp : (dget g.nodes p).isNone
      · refine ⟨app, p, Or.inr ?_, Option.isNone_iff_eq_none.1 hp,
          c, p, List.mem_cons_self _ _, Or.inr rfl⟩
        simp [resolveAux, hc, hp]
      · have hstep : resolveAux ((app, c, p) :: rest) g =
            resolveAux rest { g with node_map := linkDep g.node_map c p } := by
          simp [resolveAux, hc, hp]
        have hbad' : ∃ d ∈ rest,
            (dget g.nodes d.2.1).isNone ∨ (dget g.nodes d.2.2).isNone := by
          obtain ⟨d, hd, hv⟩ := hbad
          rcases List.mem_cons.1 hd with rfl | hd'
          · rcases hv with hv | hv
            · exact absurd hv hc
            · exact absurd hv hp
          · exact ⟨d, hd', hv⟩
        obtain ⟨app', k', herr, hnone, c', p', hmem, hor⟩ :=
          ih { g with node_map := linkDep g.node_map c p } rfl hbad'
        rw [hstep]
        exact ⟨app', k', herr, hnone, c', p', List.mem_cons_of_mem _ hmem, hor⟩

theorem resolveAux_ok_of_good :
    ∀ (deps : List (Label × Key × Key)) (g : SqlStateGraph),
      (∀ d ∈ deps, (dget g.nodes d.2.1).isSome ∧ (dget g.nodes d.2.2).isSome) →
      ∃ g', resolveAux deps g = .ok g' ∧
        g'.nodes = g.nodes ∧ g'.dependencies = g.dependencies ∧
        mapLe g.node_map g'.node_map ∧
        ∀ d ∈ deps,
          (∀ n, dget g'.node_map d.2.1 = some n → d.2.2 ∈ n.parents) ∧
          (∀ n, dget g'.node_map d.2.2 = some n → d.2.1 ∈ n.children) := by
  intro deps
  induction deps with
  | nil =>
    intro g _
    exact ⟨g, rfl, rfl, rfl, mapLe_refl g.node_map,
      fun d hd => absurd hd (List.not_mem_nil d)⟩
  | cons hd rest ih =>
    obtain ⟨app, c, p⟩ := hd
    intro g hgood
    have hc : (dget g.nodes c).isSome := (hgood _ (List.mem_cons_self _ _)).1
    have hp : (dget g.nodes p).isSome := (hgood _ (List.mem_cons_self _ _)).2
    have hcn : ¬ (dget g.nodes c).isNone := by
      simp [Option.isNone_iff_eq_none]
      exact Option.isSome_iff_exists.1 hc |>.elim fun v hv => by simp [hv]
    have hpn : ¬ (dget g.nodes p).isNone := by
      simp [Option.isNone_iff_eq_none]
      exact Option.isSome_iff_exists.1 hp |>.elim fun v hv => by simp [hv]
    have hstep : resolveAux ((app, c, p) :: rest) g =
        resolveAux rest { g with node_map := linkDep g.node_map c p } := by
      simp [resolveAux, hcn, hpn]
    set g1 : SqlStateGraph := { g with node_map := linkDep g.node_map c p } with hg1
    have hgood' : ∀ d ∈ rest,
        (dget g1.nodes d.2.1).isSome ∧ (dget g1.nodes d.2.2).isSome :=
      fun d hd => hgood d (List.mem_cons_of_mem _ hd)
    obtain ⟨g', hok, hnodes, hdeps, hle, hlinks⟩ := ih g1 hgood'
    refine ⟨g', by rw [hstep]; exact hok, hnodes, hdeps,
      mapLe_trans (linkDep_mapLe g.node_map c p) hle, ?_⟩
    intro d hd
    rcases List.mem_cons.1 hd with rfl | hd'
    · constructor
      · intro n hn
        cases h1 : dget g1.node_map c with
        | none =>
          rw [(hle c).1 h1] at hn
          exact absurd hn (by simp)
        | some n1 =>
          obtain ⟨n', hn', hle'⟩ := (hle c).2 n1 h1
          rw [hn'] at hn
          injection hn with hn
          subst hn
          exact hle'.1 _ (linkDep_parent g.node_map c p n1 h1)
      · intro n hn
        cases h1 : dget g1.node_map p with
        | none =>
          rw [(hle p).1 h1] at hn
          exact absurd hn (by simp)
        | some n1 =>
          obtain ⟨n', hn', hle'⟩ := (hle p).2 n1 h1
          rw [hn'] at hn
          injection hn with hn
          subst hn
          exact hle'.2 _ (linkDep_child g.node_map c p n1 h1)
    · exact hlinks d hd'

/-- Claim C7 (confirmed): `resolve_dependencies` raises
`NodeNotFoundError` naming the requesting app and an absent key whenever
some pending declaration references a child or parent key not registered
in the snapshot; when every referenced key exists it succeeds, leaves
the construct map and the declaration list unchanged, and links every
declared parent and child bidirectionally (the parent joins the child's
parent set and the child joins the parent's child set). -/
theorem c7_resolve_dependencies (g : SqlStateGraph) :
    ((∃ d ∈ g.dependencies,
        (dget g.nodes d.2.1).isNone ∨ (dget g.nodes d.2.2).isNone) →
      ∃ app k', (resolve_dependencies g = .error (.missingChild app k') ∨
          resolve_dependencies g = .error (.missingParent app k')) ∧
        dget g.nodes k' = Option.none ∧
        ∃ c p, (app, c, p) ∈ g.dependencies ∧ (k' = c ∨ k' = p)) ∧
    ((∀ d ∈ g.dependencies,
        (dget g.nodes d.2.1).isSome ∧ (dget g.nodes d.2.2).isSome) →
      ∃ g', resolve_dependencies g = .ok g' ∧
        g'.nodes = g.nodes ∧ g'.dependencies = g.dependencies ∧
        ∀ d ∈ g.dependencies,
          (∀ n, dget g'.node_map d.2.1 = some n → d.2.2 ∈ n.parents) ∧
          (∀ n, dget g'.node_map d.2.2 = some n → d.2.1 ∈ n.children)) := by
  constructor
  · intro hbad
    exact resolveAux_error_of_bad g.dependencies g rfl hbad
  · intro hgood
    obtain ⟨g', hok, hnodes, hdeps, _, hlinks⟩ :=
      resolveAux_ok_of_good g.dependencies g hgood
    exact ⟨g', hok, hnodes, hdeps, hlinks⟩

/-- C7 example: a snapshot with two constructs and one declaration. -/
def c7Good : SqlStateGraph :=
  add_lazy_dependency
    (add_node (add_node emptyGraph ("app", "a")
        { sql := .raw "A", reverse_sql := .raw "RA" })
      ("app", "b") { sql := .raw "B", reverse_sql := .raw "RB" })
    "app" ("app", "b") ("app", "a")

/-- C7 example: a declaration referencing an unregistered parent. -/
def c7Bad : SqlStateGraph :=
  add_lazy_dependency
    (add_node emptyGraph ("app", "b") { sql := .raw "B", reverse_sql := .raw "RB" })
    "app" ("app", "b") ("app", "missing")

/-- Witness for C7 at the concrete snapshots above: the good snapshot
resolves with the declared link established in both directions, and the
bad snapshot produces an error naming the absent key. -/
theorem c7_witness :
    ((∀ d ∈ c7Good.dependencies,
        (dget c7Good.nodes d.2.1).isSome ∧ (dget c7Good.nodes d.2.2).isSome) ∧
      (∃ g', resolve_dependencies c7Good = .ok g' ∧
        g'.nodes = c7Good.nodes ∧ g'.dependencies = c7Good.dependencies ∧
        ∀ d ∈ c7Good.dependencies,
          (∀ n, dget g'.node_map d.2.1 = some n → d.2.2 ∈ n.parents) ∧
          (∀ n, dget g'.node_map d.2.2 = some n → d.2.1 ∈ n.children))) ∧
    ((∃ d ∈ c7Bad.dependencies,
        (dget c7Bad.nodes d.2.1).isNone ∨ (dget c7Bad.nodes d.2.2).isNone) ∧
      (∃ app k', (resolve_dependencies c7Bad = .error (.missingChild app k') ∨
          resolve_dependencies c7Bad = .error (.missingParent app k')) ∧
        dget c7Bad.nodes k' = Option.none ∧
        ∃ c p, (app, c, p) ∈ c7Bad.dependencies ∧ (k' = c ∨ k' = p))) :=
  ⟨⟨by decide, (c7_resolve_dependencies c7Good).2 (by decide)⟩,
    ⟨by decide, (c7_resolve_dependencies c7Bad).1 (by decide)⟩⟩

/-! ### Claim C9: cyclic dependencies and the ordering traversal -/

/-- A walk along parent edges: `isParentPath m a l` holds when the
successive elements of `l` each are a parent of the previous key,
starting from `a`. -/
def isParentPath (m : List (Key × GNode)) : Key → List Key → Bool
  | _, [] => true
  | a, b :: t => decide (b ∈ parentsOf m a) && isParentPath m b t

theorem mapE_ok_forall {α β : Type} (f : α → Except SqlErr β) :
    ∀ (l : List α) (bs : List β), mapE f l = .ok bs →
      ∀ a ∈ l, ∃ b, f a = .ok b := by
  intro l
  induction l with
  | nil => intro bs _ a ha; exact absurd ha (List.not_mem_nil a)
  | cons x t ih =>
    intro bs h a ha
    unfold mapE at h
    cases hfx : f x with
    | error e => rw [hfx] at h; exact absurd h (by simp)
    | ok b =>
      rw [hfx] at h
      cases hmt : mapE f t with
      | error e => rw [hmt] at h; exact absurd h (by simp)
      | ok bs' =>
        rcases List.mem_cons.1 ha with rfl | ha'
        · exact ⟨b, hfx⟩
        · exact ih bs' hmt a ha'

theorem mapE_error_exists {α β : Type} (f : α → Except SqlErr β) :
    ∀ (l : List α) (e : SqlErr), mapE f l = .error e →
      ∃ a ∈ l, f a = .error e := by
  intro l
  induction l with
  | nil => intro e h; exact absurd h (by simp [mapE])
  | cons x t ih =>
    intro e h
    unfold mapE at h
    cases hfx : f x with
    | error e' =>
      rw [hfx] at h
      injection h with h
      subst h
      exact ⟨x, List.mem_cons_self _ _, hfx⟩
    | ok b =>
      rw [hfx] at h
      cases hmt : mapE f t with
      | error e' =>
        rw [hmt] at h
        injection h with h
        subst h
        obtain ⟨a, ha, hfa⟩ := ih e' hmt
        exact ⟨a, List.mem_cons_of_mem _ ha, hfa⟩
      | ok bs' => rw [hmt] at h; exact absurd h (by simp)

theorem ancestorsAux_error_cyclic (m : List (Key × GNode)) :
    ∀ (fuel : Nat) (path : List Key) (k : Key) (e : SqlErr),
      ancestorsAux m fuel path k = .error e → e = .cyclicDependency := by
  intro fuel
  induction fuel with
  | zero =>
    intro path k e h
    unfold ancestorsAux at h
    injection h with h
    exact h.symm
  | succ fz ih =>
    intro path k e h
    unfold ancestorsAux at h
    by_cases hk : k ∈ path
    · rw [if_pos hk] at h
      injection h with h
      exact h.symm
    · rw [if_neg hk] at h
      cases hm : mapE (fun p => ancestorsAux m fz (k :: path) p) (parentsOf m k) with
      | error e' =>
        rw [hm] at h
        injection h with h
        obtain ⟨a, _, hfa⟩ := mapE_error_exists _ _ _ hm
        rw [← h]
        exact ih (k :: path) a e' hfa
      | ok ls => rw [hm] at h; exact absurd h (by simp)

theorem descendantsAux_error_cyclic (m : List (Key × GNode)) :
    ∀ (fuel : Nat) (path : List Key) (k : Key) (e : SqlErr),
      descendantsAux m fuel path k = .error e → e = .cyclicDependency := by
  intro fuel
  induction fuel with
  | zero =>
    intro path k e h
    unfold descendantsAux at h
    injection h with h
    exact h.symm
  | succ fz ih =>
    intro path k e h
    unfold descendantsAux at h
    by_cases hk : k ∈ path
    · rw [if_pos hk] at h
      injection h with h
      exact h.symm
    · rw [if_neg hk] at h
      cases hm : mapE (fun c => descendantsAux m fz (k :: path) c) (childrenOf m k) with
      | error e' =>
        rw [hm] at h
        injection h with h
        obtain ⟨a, _, hfa⟩ := mapE_error_exists _ _ _ hm
        rw [← h]
        exact ih (k :: path) a e' hfa
      | ok ls => rw [hm] at h; exact absurd h (by simp)

theorem ancestors_error_cyclic (g : SqlStateGraph) (k : Key) (e : SqlErr)
    (h : ancestors g k = .error e) : e = .cyclicDependency := by
  unfold ancestors at h
  cases haux : ancestorsAux g.node_map (g.node_map.length + 1) [] k with
  | error e' =>
    rw [haux] at h
    injection h with h
    rw [← h]
    exact ancestorsAux_error_cyclic g.node_map _ [] k e' haux
  | ok l => rw [haux] at h; exact absurd h (by simp)

theorem descendants_error_cyclic (g : SqlStateGraph) (k : Key) (e : SqlErr)
    (h : descendants g k = .error e) : e = .cyclicDependency := by
  unfold descendants at h
  cases haux : descendantsAux g.node_map (g.node_map.length + 1) [] k with
  | error e' =>
    rw [haux] at h
    injection h with h
    rw [← h]
    exact descendantsAux_error_cyclic g.node_map _ [] k e' haux
  | ok l => rw [haux] at h; exact absurd h (by simp)

theorem ancestorsAux_not_ok (m : List (Key × GNode)) :
    ∀ (l : List Key) (a : Key) (path : List Key) (fuel : Nat),
      isParentPath m a l = true →
      ((∃ x ∈ a :: l, x ∈ path) ∨ ¬ (a :: l).Nodup) →
      ∀ r, ancestorsAux m fuel path a ≠ .ok r := by
  intro l
  induction l with
  | nil =>
    intro a path fuel _ hbad r h
    have hap : a ∈ path := by
      rcases hbad with ⟨x, hx, hxp⟩ | hnd
      · rcases List.mem_singleton.1 hx with rfl
        exact hxp
      · exact absurd (List.nodup_singleton a) hnd
    cases fuel with
    | zero => exact absurd h (by simp [ancestorsAux])
    | succ fz =>
      unfold ancestorsAux at h
      rw [if_pos hap] at h
      exact absurd h (by simp)
  | cons b t ih =>
    intro a path fuel hpath hbad r h
    have hb : b ∈ parentsOf m a ∧ isParentPath m b t = true := by
      unfold isParentPath at hpath
      rw [Bool.and_eq_true] at hpath
      exact ⟨of_decide_eq_true hpath.1, hpath.2⟩
    cases fuel with
    | zero => exact absurd h (by simp [ancestorsAux])
    | succ fz =>
      unfold ancestorsAux at h
      by_cases hap : a ∈ path
      · rw [if_pos hap] at h
        exact absurd h (by simp)
      · rw [if_neg hap] at h
        cases hm : mapE (fun p => ancestorsAux m fz (a :: path) p) (parentsOf m a) with
        | error e => rw [hm] at h; exact absurd h (by simp)
        | ok ls =>
          obtain ⟨rb, hrb⟩ := mapE_ok_forall _ _ _ hm b hb.1
          have hbad' : (∃ x ∈ b :: t, x ∈ a :: path) ∨ ¬ (b :: t).Nodup := by
            rcases hbad with ⟨x, hx, hxp⟩ | hnd
            · rcases List.mem_cons.1 hx with rfl | hx'
              · exact absurd hxp hap
              · exact Or.inl ⟨x, hx', List.mem_cons_of_mem _ hxp⟩
            · rw [List.nodup_cons] at hnd
              push_neg at hnd
              by_cases hat : a ∈ b :: t
              · exact Or.inl ⟨a, hat, List.mem_cons_self _ _⟩
              · exact Or.inr (hnd hat)
          exact ih b (a :: path) fz hb.2 hbad' rb hrb

theorem ancestors_cyclic (g : SqlStateGraph) (k : Key) (l : List Key)
    (hpath : isParentPath g.node_map k l = true)
    (hdup : ¬ (k :: l).Nodup) :
    ancestors g k = .error .cyclicDependency := by
  unfold ancestors
  cases haux : ancestorsAux g.node_map (g.node_map.length + 1) [] k with
  | error e =>
    rw [ancestorsAux_error_cyclic g.node_map _ [] k e haux]
  | ok r =>
    exact absurd haux
      (ancestorsAux_not_ok g.node_map l k [] _ hpath (Or.inr hdup) r)

theorem sortStep_error_cyclic (g : SqlStateGraph) (allKeys : List Key)
    (st : SortState) (k : Key) (e : SqlErr)
    (h : sortStep g allKeys st k = .error e) : e = .cyclicDependency := by
  unfold sortStep at h
  cases ha : ancestors g k with
  | error e' =>
    simp only [ha] at h
    injection h with h
    rw [← h]
    exact ancestors_error_cyclic g k e' ha
  | ok af =>
    simp only [ha] at h
    by_cases hc : k ∈ st.changed
    · rw [if_pos hc] at h
      cases hd : descendants g k with
      | error e' =>
        simp only [hd] at h
        injection h with h
        rw [← h]
        exact descendants_error_cyclic g k e' hd
      | ok df =>
        simp only [hd] at h
        exact absurd h (by simp)
    · rw [if_neg hc] at h
      exact absurd h (by simp)

theorem sortStep_cyclic_of_ancestors (g : SqlStateGraph) (allKeys : List Key)
    (st : SortState) (k : Key)
    (h : ancestors g k = .error .cyclicDependency) :
    sortStep g allKeys st k = .error .cyclicDependency := by
  unfold sortStep
  rw [h]

theorem foldlE_error_of_mem (f : SortState → Key → Except SqlErr SortState)
    (k : Key)
    (hke : ∀ s, f s k = .error .cyclicDependency)
    (hall : ∀ s a e, f s a = .error e → e = .cyclicDependency) :
    ∀ (l : List Key) (s : SortState), k ∈ l →
      foldlE f s l = .error .cyclicDependency := by
  intro l
  induction l with
  | nil => intro s hk; exact absurd hk (List.not_mem_nil k)
  | cons a t ih =>
    intro s hk
    unfold foldlE
    cases hfa : f s a with
    | error e => simp only [hfa, hall s a e hfa]
    | ok s' =>
      simp only [hfa]
      rcases List.mem_cons.1 hk with rfl | hk'
      · rw [hke s] at hfa
        exact absurd hfa (by simp)
      · exact ih s' hk'

theorem mem_unionKeys (a b : List Key) (k : Key) :
    k ∈ unionKeys a b ↔ k ∈ a ∨ k ∈ b := by
  unfold unionKeys
  rw [List.mem_append, List.mem_filter]
  constructor
  · rintro (h | ⟨h, _⟩)
    · exact Or.inl h
    · exact Or.inr h
  · rintro (h | h)
    · exact Or.inl h
    · by_cases ha : k ∈ a
      · exact Or.inl ha
      · exact Or.inr ⟨h, by simpa using ha⟩

/-- Claim C9 (corrected): whenever a key that is being ordered (a member
of `new_keys ∪ changed_keys`) starts a parent-edge walk that repeats a
key, the traversal detects the repetition on its path and the whole
ordering call aborts with `CyclicDependency` instead of looping. -/
theorem c9_cycle_reachable_aborts (g : SqlStateGraph)
    (new changed : List Key) (k : Key) (l : List Key)
    (hmem : k ∈ new ∨ k ∈ changed)
    (hpath : isParentPath g.node_map k l = true)
    (hdup : ¬ (k :: l).Nodup) :
    sort_sql_changes g new changed = .error .cyclicDependency := by
  unfold sort_sql_changes
  refine foldlE_error_of_mem _ k ?_ ?_ _ _ ((mem_unionKeys new changed k).2 hmem)
  · intro s
    exact sortStep_cyclic_of_ancestors g _ s k (ancestors_cyclic g k l hpath hdup)
  · intro s a e h
    exact sortStep_error_cyclic g _ s a e h

/-- Extract the resolved graph, defaulting to the empty snapshot. -/
def exceptD (e : Except SqlErr SqlStateGraph) : SqlStateGraph :=
  match e with
  | .ok g => g
  | .error _ => emptyGraph

/-- C9 example: a snapshot whose `x` and `k` constructs depend on each
other (a dependency cycle) while `d` is isolated. -/
def c9To : SqlStateGraph := exceptD (resolve_dependencies
  (add_lazy_dependency
    (add_lazy_dependency
      (add_node
        (add_node
          (add_node emptyGraph ("app", "x") { sql := .raw "X", reverse_sql := .raw "RX" })
          ("app", "k") { sql := .raw "K", reverse_sql := .raw "RK" })
        ("app", "d") { sql := .raw "D", reverse_sql := .raw "RD" })
      "app" ("app", "x") ("app", "k"))
    "app" ("app", "k") ("app", "x")))

/-- Claim C9 counterexample: the snapshot above is cyclic (the walk
x → k → x repeats `x`), yet ordering only the unrelated new key `d`
terminates successfully — a cyclic dependency relation alone does not
abort ordering; only a cycle actually reached by a traversal does. -/
theorem c9_counterexample :
    (isParentPath c9To.node_map ("app", "x") [("app", "k"), ("app", "x")] = true ∧
      ¬ (("app", "x") :: [("app", "k"), ("app", "x")]).Nodup) ∧
    sort_sql_changes c9To [("app", "d")] [] =
      .ok { result := [("app", "d")], changed := [] } := by
  refine ⟨⟨?_, ?_⟩, ?_⟩ <;> decide

/-- Witness for C9 at the concrete cyclic snapshot above: ordering the
key `x`, which lies on the cycle, aborts with `CyclicDependency`. -/
theorem c9_witness :
    ((("app", "x") ∈ [("app", "x")] ∨ ("app", "x") ∈ ([] : List Key)) ∧
      isParentPath c9To.node_map ("app", "x") [("app", "k"), ("app", "x")] = true ∧
      ¬ (("app", "x") :: [("app", "k"), ("app", "x")]).Nodup) ∧
    sort_sql_changes c9To [("app", "x")] [] = .error .cyclicDependency :=
  ⟨⟨by decide, by decide, by decide⟩,
    c9_cycle_reachable_aborts c9To [("app", "x")] [] ("app", "x")
      [("app", "k"), ("app", "x")] (by decide) (by decide) (by decide)⟩

/-! ### List lemmas for the ordering algorithm -/

theorem mem_linsert (l : List Key) (i : Nat) (k x : Key) :
    x ∈ linsert l i k ↔ x = k ∨ x ∈ l := by
  induction l generalizing i with
  | nil =>
    cases i with
    | zero => simp [linsert]
    | succ j => simp [linsert]
  | cons a t ih =>
    cases i with
    | zero => simp [linsert]
    | succ j =>
      simp only [linsert, List.mem_cons, ih]
      constructor
      · rintro (h | h | h)
        · exact Or.inr (Or.inl h)
        · exact Or.inl h
        · exact Or.inr (Or.inr h)
      · rintro (h | h | h)
        · exact Or.inr (Or.inl h)
        · exact Or.inl h
        · exact Or.inr (Or.inr h)

theorem linsert_nodup (l : List Key) (i : Nat) (k : Key)
    (hk : k ∉ l) (hl : l.Nodup) : (linsert l i k).Nodup := by
  induction l generalizing i with
  | nil =>
    cases i with
    | zero => simp [linsert]
    | succ j => simp [linsert]
  | cons a t ih =>
    cases i with
    | zero =>
      rw [linsert, List.nodup_cons]
      exact ⟨hk, hl⟩
    | succ j =>
      rw [linsert, List.nodup_cons]
      rw [List.nodup_cons] at hl
      refine ⟨?_, ih j (fun h => hk (List.mem_cons_of_mem a h)) hl.2⟩
      intro hmem
      rcases (mem_linsert t j k a).1 hmem with rfl | h
      · exact hk (List.mem_cons_self a t)
      · exact hl.1 h

theorem linsert_append (A B : List Key) (k : Key) :
    linsert (A ++ B) A.length k = A ++ k :: B := by
  induction A with
  | nil =>
    cases B with
    | nil => rfl
    | cons b t => rfl
  | cons a t ih => simp [linsert, ih]

theorem findPos_le_length (res ancs : List Key) :
    findPos res ancs ≤ res.length := by
  induction res with
  | nil => simp [findPos]
  | cons a t ih =>
    rw [findPos]
    by_cases ha : a ∈ ancs
    · rw [if_pos ha]
      simp
    · rw [if_neg ha, List.length_cons]
      omega

theorem linsert_take_drop (l : List Key) (i : Nat) (k : Key)
    (h : i ≤ l.length) :
    linsert l i k = l.take i ++ k :: l.drop i := by
  have hfull := linsert_append (l.take i) (l.drop i) k
  rw [List.take_append_drop] at hfull
  rwa [List.length_take, Nat.min_eq_left h] at hfull

theorem findPos_spec (res ancs : List Key) :
    (findPos res ancs = res.length ∧ ∀ x ∈ res, x ∉ ancs) ∨
    (∃ y rest, res.drop (findPos res ancs) = y :: rest ∧ y ∈ ancs ∧
      ∀ x ∈ res.take (findPos res ancs), x ∉ ancs) := by
  induction res with
  | nil => exact Or.inl ⟨rfl, by simp⟩
  | cons a t ih =>
    by_cases ha : a ∈ ancs
    · refine Or.inr ⟨a, t, ?_, ha, ?_⟩
      · simp [findPos, ha]
      · simp [findPos, ha]
    · rcases ih with ⟨hlen, hall⟩ | ⟨y, rest, hdrop, hy, htake⟩
      · refine Or.inl ⟨?_, ?_⟩
        · simp [findPos, ha, hlen]
        · intro x hx
          rcases List.mem_cons.1 hx with rfl | hx'
          · exact ha
          · exact hall x hx'
      · refine Or.inr ⟨y, rest, ?_, hy, ?_⟩
        · simpa [findPos, ha] using hdrop
        · intro x hx
          rw [findPos] at hx
          rw [if_neg ha] at hx
          rw [List.take_succ_cons] at hx
          rcases List.mem_cons.1 hx with rfl | hx'
          · exact ha
          · exact htake x hx'

theorem mem_dedupAux (l : List Key) :
    ∀ (seen : List Key) (x : Key),
      x ∈ dedupAux seen l ↔ x ∈ l ∧ x ∉ seen := by
  induction l with
  | nil => intro seen x; simp [dedupAux]
  | cons a t ih =>
    intro seen x
    by_cases ha : a ∈ seen
    · rw [dedupAux, if_pos ha, ih seen x]
      constructor
      · rintro ⟨hx, hs⟩
        exact ⟨List.mem_cons_of_mem a hx, hs⟩
      · rintro ⟨hx, hs⟩
        rcases List.mem_cons.1 hx with rfl | hx'
        · exact absurd ha hs
        · exact ⟨hx', hs⟩
    · rw [dedupAux, if_neg ha]
      constructor
      · intro hx
        rcases List.mem_cons.1 hx with rfl | hx'
        · exact ⟨List.mem_cons_self _ _, ha⟩
        · have := (ih (a :: seen) x).1 hx'
          exact ⟨List.mem_cons_of_mem a this.1,
            fun hs => this.2 (List.mem_cons_of_mem a hs)⟩
      · rintro ⟨hx, hs⟩
        rcases List.mem_cons.1 hx with rfl | hx'
        · exact List.mem_cons_self _ _
        · by_cases hxa : x = a
          · subst hxa
            exact List.mem_cons_self _ _
          · refine List.mem_cons_of_mem _ ((ih (a :: seen) x).2 ⟨hx', ?_⟩)
            intro hmem
            rcases List.mem_cons.1 hmem with h | h
            · exact hxa h
            · exact hs h

theorem dedupAux_nodup (l : List Key) :
    ∀ (seen : List Key), (dedupAux seen l).Nodup := by
  induction l with
  | nil => intro seen; simp [dedupAux]
  | cons a t ih =>
    intro seen
    by_cases ha : a ∈ seen
    · rw [dedupAux, if_pos ha]
      exact ih seen
    · rw [dedupAux, if_neg ha, List.nodup_cons]
      refine ⟨?_, ih (a :: seen)⟩
      intro hmem
      exact ((mem_dedupAux t (a :: seen) a).1 hmem).2 (List.mem_cons_self _ _)

theorem dedupKeys_nodup (l : List Key) : (dedupKeys l).Nodup :=
  dedupAux_nodup l []

theorem descendants_ok_nodup (g : SqlStateGraph) (k : Key) (l : List Key)
    (h : descendants g k = .ok l) : l.Nodup := by
  unfold descendants at h
  cases haux : descendantsAux g.node_map (g.node_map.length + 1) [] k with
  | error e => rw [haux] at h; exact absurd h (by simp)
  | ok raw =>
    rw [haux] at h
    injection h with h
    rw [← h]
    exact dedupKeys_nodup raw

theorem ancestors_ok_nodup (g : SqlStateGraph) (k : Key) (l : List Key)
    (h : ancestors g k = .ok l) : l.Nodup := by
  unfold ancestors at h
  cases haux : ancestorsAux g.node_map (g.node_map.length + 1) [] k with
  | error e => rw [haux] at h; exact absurd h (by simp)
  | ok raw =>
    rw [haux] at h
    injection h with h
    rw [← h]
    exact dedupKeys_nodup raw

/-! ### The exact shape of the cascading loop -/

theorem cascadeStep_pos (allKeys : List Key) (pos : Nat) (acc : SortState)
    (d : Key) (h : d ∉ allKeys ∧ d ∉ acc.result) :
    cascadeStep allKeys pos acc d =
      { result := linsert acc.result pos d, changed := addToSet d acc.changed } := by
  rw [cascadeStep, if_pos h]

theorem cascadeStep_neg (allKeys : List Key) (pos : Nat) (acc : SortState)
    (d : Key) (h : ¬ (d ∉ allKeys ∧ d ∉ acc.result)) :
    cascadeStep allKeys pos acc d = acc := by
  rw [cascadeStep, if_neg h]

theorem cascadeFold_exact (allKeys : List Key) (pos : Nat) :
    ∀ (ds A B : List Key) (c : List Key), A.length = pos → ds.Nodup →
      ds.foldl (cascadeStep allKeys pos) { result := A ++ B, changed := c } =
        { result :=
            A ++ (ds.filter (fun d => d ∉ allKeys ∧ d ∉ A ++ B)).reverse ++ B,
          changed :=
            (ds.filter (fun d => d ∉ allKeys ∧ d ∉ A ++ B)).foldl
              (fun cc d => addToSet d cc) c } := by
  intro ds
  induction ds with
  | nil => intro A B c _ _; simp
  | cons d t ih =>
    intro A B c hA hnd
    rw [List.nodup_cons] at hnd
    by_cases hd : d ∉ allKeys ∧ d ∉ A ++ B
    · rw [List.foldl_cons, cascadeStep_pos allKeys pos _ d hd]
      have hres : linsert (A ++ B) pos d = A ++ d :: B := by
        rw [← hA]
        exact linsert_append A B d
      rw [hres]
      have hIH := ih A (d :: B) (addToSet d c) hA hnd.2
      rw [hIH]
      have hfilt : t.filter (fun x => x ∉ allKeys ∧ x ∉ A ++ d :: B) =
          t.filter (fun x => x ∉ allKeys ∧ x ∉ A ++ B) := by
        apply List.filter_congr
        intro x hx
        have hxd : x ≠ d := fun hxe => hnd.1 (hxe ▸ hx)
        have hiff : (x ∉ allKeys ∧ x ∉ A ++ d :: B) ↔
            (x ∉ allKeys ∧ x ∉ A ++ B) := by
          constructor
          · rintro ⟨h1, h2⟩
            refine ⟨h1, fun hmem => h2 ?_⟩
            rcases List.mem_append.1 hmem with h | h
            · exact List.mem_append.2 (Or.inl h)
            · exact List.mem_append.2 (Or.inr (List.mem_cons_of_mem d h))
          · rintro ⟨h1, h2⟩
            refine ⟨h1, fun hmem => ?_⟩
            rcases List.mem_append.1 hmem with h | h
            · exact h2 (List.mem_append.2 (Or.inl h))
            · rcases List.mem_cons.1 h with h' | h'
              · exact hxd h'
              · exact h2 (List.mem_append.2 (Or.inr h'))
        simp only [decide_eq_decide]
        exact hiff
      have hcons : (d :: t).filter (fun x => x ∉ allKeys ∧ x ∉ A ++ B) =
          d :: t.filter (fun x => x ∉ allKeys ∧ x ∉ A ++ B) := by
        rw [List.filter_cons]
        simp [hd]
      rw [hcons, hfilt]
      simp [List.foldl_cons]
    · rw [List.foldl_cons, cascadeStep_neg allKeys pos _ d hd]
      rw [ih A B c hA hnd.2]
      have hcons : (d :: t).filter (fun x => x ∉ allKeys ∧ x ∉ A ++ B) =
          t.filter (fun x => x ∉ allKeys ∧ x ∉ A ++ B) := by
        rw [List.filter_cons]
        simp only [decide_eq_true_eq]
        rw [if_neg hd]
      rw [hcons]

/-! ### Membership and uniqueness invariants of the ordering -/

theorem cascadeFold_inv (allKeys : List Key) (pos : Nat) :
    ∀ (ds : List Key) (st : SortState), st.result.Nodup →
      ((ds.foldl (cascadeStep allKeys pos) st).result.Nodup ∧
        (∀ x ∈ st.result, x ∈ (ds.foldl (cascadeStep allKeys pos) st).result) ∧
        (∀ x ∈ (ds.foldl (cascadeStep allKeys pos) st).result,
          x ∈ st.result ∨
            (x ∉ allKeys ∧ x ∈ (ds.foldl (cascadeStep allKeys pos) st).changed)) ∧
        (∀ x ∈ st.changed, x ∈ (ds.foldl (cascadeStep allKeys pos) st).changed) ∧
        (∀ x ∈ (ds.foldl (cascadeStep allKeys pos) st).changed,
          x ∈ st.changed ∨ x ∈ (ds.foldl (cascadeStep allKeys pos) st).result)) := by
  intro ds
  induction ds with
  | nil =>
    intro st hnd
    exact ⟨hnd, fun x hx => hx, fun x hx => Or.inl hx,
      fun x hx => hx, fun x hx => Or.inl hx⟩
  | cons d t ih =>
    intro st hnd
    rw [List.foldl_cons]
    by_cases hd : d ∉ allKeys ∧ d ∉ st.result
    · rw [cascadeStep_pos allKeys pos st d hd]
      set st1 : SortState :=
        { result := linsert st.result pos d, changed := addToSet d st.changed }
        with hst1
      have hnd1 : st1.result.Nodup := linsert_nodup st.result pos d hd.2 hnd
      obtain ⟨ihnd, ihup, ihdown, ihcup, ihcdown⟩ := ih st1 hnd1
      refine ⟨ihnd, ?_, ?_, ?_, ?_⟩
      · intro x hx
        exact ihup x ((mem_linsert st.result pos d x).2 (Or.inr hx))
      · intro x hx
        rcases ihdown x hx with hx1 | hx1
        · rcases (mem_linsert st.result pos d x).1 hx1 with rfl | hx2
          · refine Or.inr ⟨hd.1, ?_⟩
            exact ihcup x ((mem_addToSet x x st.changed).2 (Or.inl rfl))
          · exact Or.inl hx2
        · exact Or.inr hx1
      · intro x hx
        exact ihcup x ((mem_addToSet d x st.changed).2 (Or.inr hx))
      · intro x hx
        rcases ihcdown x hx with hx1 | hx1
        · rcases (mem_addToSet d x st.changed).1 hx1 with rfl | hx2
          · exact Or.inr (ihup x ((mem_linsert st.result pos x x).2 (Or.inl rfl)))
          · exact Or.inl hx2
        · exact Or.inr hx1
    · rw [cascadeStep_neg allKeys pos st d hd]
      exact ih st hnd

theorem sortStep_inv (g : SqlStateGraph) (allKeys : List Key)
    (st st' : SortState) (k : Key)
    (hok : sortStep g allKeys st k = .ok st')
    (hnd : st.result.Nodup) (hkr : k ∉ st.result) :
    st'.result.Nodup ∧
    k ∈ st'.result ∧
    (∀ x ∈ st.result, x ∈ st'.result) ∧
    (∀ x ∈ st'.result,
      x = k ∨ x ∈ st.result ∨ (x ∉ allKeys ∧ x ∈ st'.changed)) ∧
    (∀ x ∈ st.changed, x ∈ st'.changed) ∧
    (∀ x ∈ st'.changed, x ∈ st.changed ∨ x ∈ st'.result) := by
  unfold sortStep at hok
  cases ha : ancestors g k with
  | error e => rw [ha] at hok; exact absurd hok (by simp)
  | ok af =>
    rw [ha] at hok
    simp only [] at hok
    set pos := findPos st.result af.dropLast.reverse with hpos
    set res1 := linsert st.result pos k with hres1
    have hres1nd : res1.Nodup := linsert_nodup st.result pos k hkr hnd
    have hkres1 : k ∈ res1 := (mem_linsert st.result pos k k).2 (Or.inl rfl)
    have hres1up : ∀ x ∈ st.result, x ∈ res1 :=
      fun x hx => (mem_linsert st.result pos k x).2 (Or.inr hx)
    have hres1down : ∀ x ∈ res1, x = k ∨ x ∈ st.result :=
      fun x hx => (mem_linsert st.result pos k x).1 hx
    by_cases hc : k ∈ st.changed
    · rw [if_pos hc] at hok
      cases hd : descendants g k with
      | error e => rw [hd] at hok; exact absurd hok (by simp)
      | ok df =>
        rw [hd] at hok
        injection hok with hok
        obtain ⟨ihnd, ihup, ihdown, ihcup, ihcdown⟩ :=
          cascadeFold_inv allKeys pos df.dropLast.reverse
            { result := res1, changed := st.changed } hres1nd
        rw [hok] at ihnd ihup ihdown ihcup ihcdown
        refine ⟨ihnd, ihup k hkres1, ?_, ?_, ihcup, ?_⟩
        · intro x hx
          exact ihup x (hres1up x hx)
        · intro x hx
          rcases ihdown x hx with hx1 | hx1
          · rcases hres1down x hx1 with rfl | hx2
            · exact Or.inl rfl
            · exact Or.inr (Or.inl hx2)
          · exact Or.inr (Or.inr hx1)
        · intro x hx
          rcases ihcdown x hx with hx1 | hx1
          · exact Or.inl hx1
          · exact Or.inr hx1
    · rw [if_neg hc] at hok
      injection hok with hok
      rw [← hok]
      refine ⟨hres1nd, hkres1, hres1up, ?_, fun x hx => hx, fun x hx => Or.inl hx⟩
      intro x hx
      rcases hres1down x hx with rfl | hx1
      · exact Or.inl rfl
      · exact Or.inr (Or.inl hx1)

/-- The running invariant of `sort_sql_changes`: `done` is the prefix of
the iteration already processed. -/
def SortInv (allList changed0 done : List Key) (st : SortState) : Prop :=
  st.result.Nodup ∧
  (∀ x ∈ done, x ∈ st.result) ∧
  (∀ x ∈ st.result, x ∈ done ∨ (x ∉ allList ∧ x ∈ st.changed)) ∧
  (∀ x ∈ changed0, x ∈ st.changed) ∧
  (∀ x ∈ st.changed, x ∈ changed0 ∨ x ∈ st.result)

theorem sortFold_inv (g : SqlStateGraph) (allList changed0 : List Key) :
    ∀ (rem done : List Key) (st st' : SortState),
      allList = done ++ rem → allList.Nodup →
      SortInv allList changed0 done st →
      foldlE (sortStep g allList) st rem = .ok st' →
      SortInv allList changed0 allList st' := by
  intro rem
  induction rem with
  | nil =>
    intro done st st' hsplit hnd hinv hok
    unfold foldlE at hok
    injection hok with hok
    rw [← hok]
    have hda : done = allList := by rw [hsplit, List.append_nil]
    rw [hda] at hinv
    exact hinv
  | cons k t ih =>
    intro done st st' hsplit hnd hinv hok
    unfold foldlE at hok
    cases hstep : sortStep g allList st k with
    | error e => rw [hstep] at hok; exact absurd hok (by simp)
    | ok st1 =>
      rw [hstep] at hok
      have hkall : k ∈ allList := by
        rw [hsplit]
        exact List.mem_append.2 (Or.inr (List.mem_cons_self _ _))
      have hkdone : k ∉ done := by
        intro hkd
        rw [hsplit] at hnd
        rcases List.nodup_append.1 hnd with ⟨_, hndr, hdisj⟩
        exact hdisj hkd (List.mem_cons_self _ _)
      have hkr : k ∉ st.result := by
        intro hkres
        rcases hinv.2.2.1 k hkres with h | h
        · exact hkdone h
        · exact h.1 hkall
      obtain ⟨h1, h2, h3, h4, h5, h6⟩ :=
        sortStep_inv g allList st st1 k hstep hinv.1 hkr
      have hinv1 : SortInv allList changed0 (done ++ [k]) st1 := by
        refine ⟨h1, ?_, ?_, ?_, ?_⟩
        · intro x hx
          rcases List.mem_append.1 hx with hx' | hx'
          · exact h3 x (hinv.2.1 x hx')
          · rcases List.mem_singleton.1 hx' with rfl
            exact h2
        · intro x hx
          rcases h4 x hx with rfl | hx1 | hx1
          · exact Or.inl (List.mem_append.2 (Or.inr (List.mem_singleton.2 rfl)))
          · rcases hinv.2.2.1 x hx1 with h | h
            · exact Or.inl (List.mem_append.2 (Or.inl h))
            · exact Or.inr ⟨h.1, h5 x h.2⟩
          · exact Or.inr hx1
        · intro x hx
          exact h5 x (hinv.2.2.2.1 x hx)
        · intro x hx
          rcases h6 x hx with hx1 | hx1
          · rcases hinv.2.2.2.2 x hx1 with h | h
            · exact Or.inl h
            · exact Or.inr (h3 x h)
          · exact Or.inr hx1
      exact ih (done ++ [k]) st1 st' (by rw [hsplit, List.append_assoc]; rfl)
        hnd hinv1 hok

theorem unionKeys_nodup (a b : List Key) (ha : a.Nodup) (hb : b.Nodup) :
    (unionKeys a b).Nodup := by
  unfold unionKeys
  rw [List.nodup_append]
  refine ⟨ha, hb.filter _, ?_⟩
  intro x hxa hxb
  exact absurd hxa (by simpa using (List.mem_filter.1 hxb).2)

/-- Claim C4 (confirmed): on success, the ordering returns a sequence in
which every key of `new_keys ∪ changed_keys` (as finally grown) appears
exactly once (membership is exactly the grown union, with no
duplicates); every insertion position is computed by `findPos`, which
returns the earliest position whose entry is an already-placed proper
ancestor — the key lands immediately before that ancestor, or at the
end when no ancestor is placed — and each processed key is placed at
exactly that position (with only cascaded keys from outside the input
set squeezed in at the same position before it). -/
theorem c4_sort_exactly_once_and_position (g : SqlStateGraph)
    (new changed : List Key) (st : SortState)
    (hnew : new.Nodup) (hch : changed.Nodup)
    (hok : sort_sql_changes g new changed = .ok st) :
    ((∀ k, k ∈ st.result ↔ (k ∈ new ∨ k ∈ st.changed)) ∧ st.result.Nodup) ∧
    (∀ (res ancs : List Key),
      (findPos res ancs = res.length ∧ ∀ x ∈ res, x ∉ ancs) ∨
      (∃ y rest, res.drop (findPos res ancs) = y :: rest ∧ y ∈ ancs ∧
        ∀ x ∈ res.take (findPos res ancs), x ∉ ancs)) ∧
    (∀ (s : SortState) (k : Key) (af : List Key) (s' : SortState),
      ancestors g k = .ok af →
      sortStep g (unionKeys new changed) s k = .ok s' →
      ∃ mid, (∀ x ∈ mid, x ∉ unionKeys new changed) ∧
        s'.result =
          s.result.take (findPos s.result af.dropLast.reverse) ++ mid ++
            k :: s.result.drop (findPos s.result af.dropLast.reverse)) := by
  have hall : (unionKeys new changed).Nodup := unionKeys_nodup new changed hnew hch
  unfold sort_sql_changes at hok
  have hinv0 : SortInv (unionKeys new changed) changed []
      { result := [], changed := changed } := by
    refine ⟨List.nodup_nil, ?_, ?_, ?_, ?_⟩
    · intro x hx; exact absurd hx (List.not_mem_nil x)
    · intro x hx; exact absurd hx (List.not_mem_nil x)
    · intro x hx; exact hx
    · intro x hx; exact Or.inl hx
  have hinv := sortFold_inv g (unionKeys new changed) changed
    (unionKeys new changed) [] { result := [], changed := changed } st rfl
    hall hinv0 hok
  refine ⟨⟨?_, hinv.1⟩, fun res ancs => findPos_spec res ancs, ?_⟩
  · intro k
    constructor
    · intro hk
      rcases hinv.2.2.1 k hk with h | h
      · rcases (mem_unionKeys new changed k).1 h with h' | h'
        · exact Or.inl h'
        · exact Or.inr (hinv.2.2.2.1 k h')
      · exact Or.inr h.2
    · rintro (hk | hk)
      · exact hinv.2.1 k ((mem_unionKeys new changed k).2 (Or.inl hk))
      · rcases hinv.2.2.2.2 k hk with h | h
        · exact hinv.2.1 k ((mem_unionKeys new changed k).2 (Or.inr h))
        · exact h
  · intro s k af s' ha hstep
    unfold sortStep at hstep
    rw [ha] at hstep
    simp only [] at hstep
    set pos := findPos s.result af.dropLast.reverse with hpos
    have hposle : pos ≤ s.result.length := findPos_le_length _ _
    have hres1 : linsert s.result pos k =
        s.result.take pos ++ k :: s.result.drop pos :=
      linsert_take_drop s.result pos k hposle
    by_cases hc : k ∈ s.changed
    · rw [if_pos hc] at hstep
      cases hd : descendants g k with
      | error e => rw [hd] at hstep; exact absurd hstep (by simp)
      | ok df =>
        rw [hd] at hstep
        injection hstep with hstep
        have hdfnd : df.dropLast.reverse.Nodup := by
          rw [List.nodup_reverse]
          exact (descendants_ok_nodup g k df hd).sublist (List.dropLast_sublist df)
        have htl : (s.result.take pos).length = pos := by
          rw [List.length_take]
          exact Nat.min_eq_left hposle
        have hshape := cascadeFold_exact (unionKeys new changed) pos
          df.dropLast.reverse (s.result.take pos) (k :: s.result.drop pos)
          s.changed htl hdfnd
        rw [hres1] at hstep
        rw [hshape] at hstep
        refine ⟨(df.dropLast.reverse.filter
            (fun d => d ∉ unionKeys new changed ∧
              d ∉ s.result.take pos ++ k :: s.result.drop pos)).reverse, ?_, ?_⟩
        · intro x hx
          rw [List.mem_reverse] at hx
          have := List.of_mem_filter hx
          rw [decide_eq_true_eq] at this
          exact this.1
        · rw [← hstep]
    · rw [if_neg hc] at hstep
      injection hstep with hstep
      refine ⟨[], by simp, ?_⟩
      rw [← hstep]
      simpa using hres1

/-- C4/C3 example: a chain `k ← e ← d` (e depends on k, d depends on e)
in the `to` snapshot. -/
def c4To : SqlStateGraph := exceptD (resolve_dependencies
  (add_lazy_dependency
    (add_lazy_dependency
      (add_node
        (add_node
          (add_node emptyGraph ("app", "k") { sql := .raw "K2", reverse_sql := .raw "RK" })
          ("app", "e") { sql := .raw "E", reverse_sql := .raw "RE" })
        ("app", "d") { sql := .raw "D", reverse_sql := .raw "RD" })
      "app" ("app", "e") ("app", "k"))
    "app" ("app", "d") ("app", "e")))

/-- Witness for C4 at the chain snapshot: ordering the changed key `k`
cascades `e` and `d`, the result holds exactly the grown change set,
each key once. -/
theorem c4_witness :
    (([] : List Key).Nodup ∧ [(("app", "k") : Key)].Nodup ∧
      sort_sql_changes c4To [] [("app", "k")] =
        .ok { result := [("app", "d"), ("app", "e"), ("app", "k")],
              changed := [("app", "k"), ("app", "e"), ("app", "d")] }) ∧
    ((("app", "e") ∈ [(("app", "d") : Key), ("app", "e"), ("app", "k")] ↔
        (("app", "e") ∈ ([] : List Key) ∨
          ("app", "e") ∈ [(("app", "k") : Key), ("app", "e"), ("app", "d")])) ∧
      [(("app", "d") : Key), ("app", "e"), ("app", "k")].Nodup) :=
  have hsort : sort_sql_changes c4To [] [("app", "k")] =
      .ok { result := [("app", "d"), ("app", "e"), ("app", "k")],
            changed := [("app", "k"), ("app", "e"), ("app", "d")] } := by decide
  ⟨⟨by decide, by decide, hsort⟩,
    ⟨(c4_sort_exactly_once_and_position c4To [] [("app", "k")] _
        (by decide) (by decide) hsort).1.1 ("app", "e"),
      (c4_sort_exactly_once_and_position c4To [] [("app", "k")] _
        (by decide) (by decide) hsort).1.2⟩⟩

/-! ### Claim C3: where cascaded descendants are inserted -/

theorem mem_foldl_addToSet (l : List Key) :
    ∀ (c : List Key) (x : Key),
      x ∈ l.foldl (fun cc d => addToSet d cc) c ↔ x ∈ c ∨ x ∈ l := by
  induction l with
  | nil => intro c x; simp
  | cons d t ih =>
    intro c x
    rw [List.foldl_cons, ih (addToSet d c) x, mem_addToSet d x c]
    constructor
    · rintro ((h | h) | h)
      · exact Or.inr (h ▸ List.mem_cons_self d t)
      · exact Or.inl h
      · exact Or.inr (List.mem_cons_of_mem d h)
    · rintro (h | h)
      · exact Or.inl (Or.inr h)
      · rcases List.mem_cons.1 h with rfl | h'
        · exact Or.inl (Or.inl rfl)
        · exact Or.inr h'

theorem filter_reverse_keys (p : Key → Bool) (l : List Key) :
    l.reverse.filter p = (l.filter p).reverse := by
  induction l with
  | nil => rfl
  | cons a t ih =>
    rw [List.reverse_cons, List.filter_append, ih, List.filter_cons]
    by_cases ha : p a = true
    · simp [ha]
    · simp [ha]

/-- C3 example: a diamond.  `x` is new, `k` is changed, `d` depends on
both `x` and `k` and is itself untouched. -/
def c3Diamond : SqlStateGraph := exceptD (resolve_dependencies
  (add_lazy_dependency
    (add_lazy_dependency
      (add_node
        (add_node
          (add_node emptyGraph ("app", "x") { sql := .raw "X", reverse_sql := .raw "RX" })
          ("app", "k") { sql := .raw "K2", reverse_sql := .raw "RK" })
        ("app", "d") { sql := .raw "D", reverse_sql := .raw "RD" })
      "app" ("app", "d") ("app", "x"))
    "app" ("app", "d") ("app", "k")))

/-- The proper ancestors of `d` in the diamond, in the orientation the
source uses for its position search. -/
def c3AncsD : List Key :=
  match ancestors c3Diamond ("app", "d") with
  | .ok l => l.dropLast.reverse
  | .error _ => []

/-- Claim C3 counterexample: in the diamond snapshot, ordering
`new = [x]`, `changed = [k]` cascades the descendant `d` of `k`.  The
claimed rule (insert `d` immediately before `d`'s own first
already-placed ancestor) would place `d` at position 0, in front of its
already-placed ancestor `x` (as `findPos` on the result `[x, k]` so far
confirms); the code instead inserts `d` at the changed key's own
position, producing `[x, d, k]`, where `d` sits after its ancestor `x`. -/
theorem c3_counterexample :
    sort_sql_changes c3Diamond [("app", "x")] [("app", "k")] =
      .ok { result := [("app", "x"), ("app", "d"), ("app", "k")],
            changed := [("app", "k"), ("app", "d")] } ∧
    ("app", "x") ∈ c3AncsD ∧
    findPos [("app", "x"), ("app", "k")] c3AncsD = 0 := by
  refine ⟨?_, ?_, ?_⟩ <;> decide

/-- Claim C3 (corrected): when an inserted key `k` is in `changed_keys`,
every proper descendant of `k` not in `all_keys` and not already in the
result is inserted — at the position `pos` at which `k` itself was just
inserted (immediately before `k`, not at a position recomputed from the
descendant's own ancestors), in descendant-list order (furthest
dependent ending up first); each such descendant is added to
`changed_keys`. -/
theorem c3_cascade_at_key_position (g : SqlStateGraph) (allKeys : List Key)
    (st st' : SortState) (k : Key) (af df : List Key)
    (ha : ancestors g k = .ok af) (hd : descendants g k = .ok df)
    (hc : k ∈ st.changed)
    (hok : sortStep g allKeys st k = .ok st') :
    st'.result =
      st.result.take (findPos st.result af.dropLast.reverse) ++
        df.dropLast.filter
          (fun d => d ∉ allKeys ∧
            d ∉ st.result.take (findPos st.result af.dropLast.reverse) ++
              k :: st.result.drop (findPos st.result af.dropLast.reverse)) ++
        k :: st.result.drop (findPos st.result af.dropLast.reverse) ∧
    st'.changed =
      ((df.dropLast.filter
          (fun d => d ∉ allKeys ∧
            d ∉ st.result.take (findPos st.result af.dropLast.reverse) ++
              k :: st.result.drop (findPos st.result af.dropLast.reverse))).reverse).foldl
        (fun cc d => addToSet d cc) st.changed ∧
    (∀ d ∈ df.dropLast,
      (d ∉ allKeys ∧
        d ∉ st.result.take (findPos st.result af.dropLast.reverse) ++
          k :: st.result.drop (findPos st.result af.dropLast.reverse)) →
      d ∈ st'.result ∧ d ∈ st'.changed) := by
  unfold sortStep at hok
  rw [ha] at hok
  simp only [] at hok
  rw [if_pos hc, hd] at hok
  injection hok with hok
  set pos := findPos st.result af.dropLast.reverse with hpos
  have hposle : pos ≤ st.result.length := findPos_le_length _ _
  have hres1 : linsert st.result pos k =
      st.result.take pos ++ k :: st.result.drop pos :=
    linsert_take_drop st.result pos k hposle
  have hdfnd : df.dropLast.reverse.Nodup := by
    rw [List.nodup_reverse]
    exact (descendants_ok_nodup g k df hd).sublist (List.dropLast_sublist df)
  have htl : (st.result.take pos).length = pos := by
    rw [List.length_take]
    exact Nat.min_eq_left hposle
  have hshape := cascadeFold_exact allKeys pos df.dropLast.reverse
    (st.result.take pos) (k :: st.result.drop pos) st.changed htl hdfnd
  rw [hres1] at hok
  rw [hshape] at hok
  have hfr := filter_reverse_keys
    (fun d => decide (d ∉ allKeys ∧
      d ∉ st.result.take pos ++ k :: st.result.drop pos)) df.dropLast
  rw [← hok]
  refine ⟨?_, ?_, ?_⟩
  · rw [hfr, List.reverse_reverse]
  · rw [hfr]
  · intro d hdmem helig
    have hdf : d ∈ df.dropLast.filter
        (fun d => d ∉ allKeys ∧
          d ∉ st.result.take pos ++ k :: st.result.drop pos) := by
      refine List.mem_filter.2 ⟨hdmem, ?_⟩
      rw [decide_eq_true_eq]
      exact helig
    constructor
    · rw [hfr, List.reverse_reverse]
      exact List.mem_append.2 (Or.inl (List.mem_append.2 (Or.inr hdf)))
    · rw [hfr]
      rw [mem_foldl_addToSet]
      rw [List.mem_reverse]
      exact Or.inr hdf

/-- Witness for C3 at the chain snapshot: inserting the changed key `k`
from the empty result cascades its two descendants at position 0. -/
theorem c3_witness :
    (ancestors c4To ("app", "k") = .ok [("app", "k")] ∧
      descendants c4To ("app", "k") =
        .ok [("app", "d"), ("app", "e"), ("app", "k")] ∧
      ("app", "k") ∈ [(("app", "k") : Key)] ∧
      sortStep c4To [("app", "k")]
          { result := [], changed := [("app", "k")] } ("app", "k") =
        .ok { result := [("app", "d"), ("app", "e"), ("app", "k")],
              changed := [("app", "k"), ("app", "e"), ("app", "d")] }) ∧
    ([(("app", "d") : Key), ("app", "e"), ("app", "k")] =
        ([] : List Key).take (findPos [] ([("app", "k")] : List Key).dropLast.reverse) ++
          ([("app", "d"), ("app", "e"), ("app", "k")] : List Key).dropLast.filter
            (fun d => d ∉ [(("app", "k") : Key)] ∧
              d ∉ ([] : List Key).take (findPos [] ([("app", "k")] : List Key).dropLast.reverse) ++
                ("app", "k") :: ([] : List Key).drop (findPos [] ([("app", "k")] : List Key).dropLast.reverse)) ++
          ("app", "k") :: ([] : List Key).drop (findPos [] ([("app", "k")] : List Key).dropLast.reverse)) :=
  have hstep : sortStep c4To [("app", "k")]
      { result := [], changed := [("app", "k")] } ("app", "k") =
    .ok { result := [("app", "d"), ("app", "e"), ("app", "k")],
          changed := [("app", "k"), ("app", "e"), ("app", "d")] } := by decide
  ⟨⟨by decide, by decide, by decide, hstep⟩,
    (c3_cascade_at_key_position c4To [("app", "k")]
      { result := [], changed := [("app", "k")] }
      { result := [("app", "d"), ("app", "e"), ("app", "k")],
        changed := [("app", "k"), ("app", "e"), ("app", "d")] }
      ("app", "k") [("app", "k")] [("app", "d"), ("app", "e"), ("app", "k")]
      (by decide) (by decide) (by decide) hstep).1⟩

/-! ### Claim C5: the teardown pass -/

theorem ne_append_singleton {α : Type} (l : List α) (a : α) : l ≠ l ++ [a] := by
  intro h
  have := congrArg List.length h
  simp at this

/-- Claim C5 (confirmed): for a plan-order key in `changed_keys` whose
old construct exists, the teardown step creates a `ReverseAlterSQL`
operation whose forward payload is the old reverse statement and whose
declared reverse payload is the old forward statement; the operation is
emitted (appended to the step list, with markers over the key's
`from`-graph children plus itself wired through `latest_operations`) iff
the old reverse statement is non-empty; when it is empty no step is
emitted; and in both cases the key is recorded as the latest operation
for downstream dependency wiring. -/
theorem c5_teardown_emission (changed : List Key) (st : EmitState) (k : Key)
    (old : SqlItemNode) (hc : k ∈ changed)
    (hold : dget st.fromG.nodes k = some old) :
    (teardownStep changed st k).ops = st.ops ++
      [{ kind := .reverseAlterSQL, app_label := k.1, sql_name := k.2,
         sql := old.reverse_sql, reverse_sql := old.sql }] ∧
    ((teardownStep changed st k).steps =
        st.steps ++
          [{ app_label := k.1, opId := st.ops.length,
             deps := (addToSet k
                 ((dget st.fromG.node_map k).getD nodeEmpty).children).map
               (fun d => DepMarker.sqlBlob d.1 d.2 (dget st.latest d)) }] ↔
      old.reverse_sql.truthy = true) ∧
    (old.reverse_sql.truthy = false →
      (teardownStep changed st k).steps = st.steps) ∧
    dget (teardownStep changed st k).latest k = some st.ops.length := by
  by_cases ht : old.reverse_sql.truthy
  · refine ⟨?_, ?_, ?_, ?_⟩
    · simp [teardownStep, hc, hold]
    · constructor
      · intro _
        exact ht
      · intro _
        simp [teardownStep, hc, hold, ht]
    · intro hf
      rw [ht] at hf
      exact absurd hf (by simp)
    · simp [teardownStep, hc, hold, dget_dset_self]
  · have ht' : old.reverse_sql.truthy = false := by
      cases hb : old.reverse_sql.truthy
      · rfl
      · exact absurd hb ht
    refine ⟨?_, ?_, ?_, ?_⟩
    · simp [teardownStep, hc, hold]
    · constructor
      · intro hsteps
        have hs : (teardownStep changed st k).steps = st.steps := by
          simp [teardownStep, hc, hold, ht']
        rw [hs] at hsteps
        exact absurd hsteps (ne_append_singleton _ _)
      · intro hb
        rw [hb] at ht'
        exact absurd ht' (by simp)
    · intro _
      simp [teardownStep, hc, hold, ht']
    · simp [teardownStep, hc, hold, dget_dset_self]

/-- C5 example emission state: one changed construct with a truthy
reverse statement, and one with an empty reverse statement. -/
def c5FromG : SqlStateGraph :=
  add_node
    (add_node emptyGraph ("app", "v") { sql := .raw "S", reverse_sql := .raw "R" })
    ("app", "w") { sql := .raw "T", reverse_sql := .raw "" }

/-- C5 example initial emission state over `c5FromG`. -/
def c5St : EmitState :=
  { fromG := c5FromG, toG := emptyGraph, ops := [], steps := [], latest := [] }

/-- Witness for C5 at the concrete state above: the key with a truthy
old reverse payload produces exactly the appended `ReverseAlterSQL`
operation and step, and is recorded as the latest operation. -/
theorem c5_witness :
    (("app", "v") ∈ [(("app", "v") : Key), ("app", "w")] ∧
      dget c5St.fromG.nodes ("app", "v") =
        some { sql := .raw "S", reverse_sql := .raw "R" }) ∧
    ((teardownStep [("app", "v"), ("app", "w")] c5St ("app", "v")).ops =
        c5St.ops ++
          [{ kind := .reverseAlterSQL, app_label := "app", sql_name := "v",
             sql := .raw "R", reverse_sql := .raw "S" }] ∧
      dget (teardownStep [("app", "v"), ("app", "w")] c5St ("app", "v")).latest
          ("app", "v") = some c5St.ops.length) :=
  have h := c5_teardown_emission [("app", "v"), ("app", "w")] c5St ("app", "v")
    { sql := .raw "S", reverse_sql := .raw "R" } (by decide) (by decide)
  ⟨⟨by decide, by decide⟩, ⟨h.1, h.2.2.2⟩⟩

/-! ### Claim C2: what planning leaves untouched, and what it mutates -/

/-- How the `from` snapshot relates to its state after planning: the
construct map, the dependency list and the `node_map` domain are
unchanged, and the only possible change to a node is that its key was
added to its own children set. -/
def fromPlanRel (g0 g : SqlStateGraph) : Prop :=
  g.nodes = g0.nodes ∧ g.dependencies = g0.dependencies ∧
  (∀ k, dget g0.node_map k = Option.none → dget g.node_map k = Option.none) ∧
  (∀ k n, dget g0.node_map k = some n →
    dget g.node_map k = some n ∨
    dget g.node_map k = some { n with children := addToSet k n.children })

/-- How the `to` snapshot relates to its state after planning: as
`fromPlanRel`, but a node may have gained its own key in its parent
set. -/
def toPlanRel (g0 g : SqlStateGraph) : Prop :=
  g.nodes = g0.nodes ∧ g.dependencies = g0.dependencies ∧
  (∀ k, dget g0.node_map k = Option.none → dget g.node_map k = Option.none) ∧
  (∀ k n, dget g0.node_map k = some n →
    dget g.node_map k = some n ∨
    dget g.node_map k = some { n with parents := addToSet k n.parents })

theorem fromPlanRel_refl (g : SqlStateGraph) : fromPlanRel g g :=
  ⟨rfl, rfl, fun _ h => h, fun _ n h => Or.inl h⟩

theorem toPlanRel_refl (g : SqlStateGraph) : toPlanRel g g :=
  ⟨rfl, rfl, fun _ h => h, fun _ n h => Or.inl h⟩

theorem teardownStep_graphs (changed : List Key) (g0 : SqlStateGraph)
    (st : EmitState) (k : Key)
    (hsync : ∀ k', (dget g0.nodes k').isSome → (dget g0.node_map k').isSome)
    (hrel : fromPlanRel g0 st.fromG) :
    fromPlanRel g0 (teardownStep changed st k).fromG ∧
    (teardownStep changed st k).toG = st.toG := by
  by_cases hc : k ∈ changed
  · cases hold : dget st.fromG.nodes k with
    | none => simp [teardownStep, hc, hold, hrel]
    | some old =>
      have hgnodes : dget g0.nodes k = some old := by
        rw [← hrel.1]
        exact hold
      have hmap0 : (dget g0.node_map k).isSome := hsync k (by simp [hgnodes])
      obtain ⟨n0, hn0⟩ := Option.isSome_iff_exists.1 hmap0
      refine ⟨?_, by simp [teardownStep, hc, hold]⟩
      have hcur := hrel.2.2.2 k n0 hn0
      refine ⟨?_, ?_, ?_, ?_⟩
      · simpa [teardownStep, hc, hold] using hrel.1
      · simpa [teardownStep, hc, hold] using hrel.2.1
      · intro k' hk'
        by_cases hkk : k' = k
        · subst hkk
          rw [hn0] at hk'
          exact absurd hk' (by simp)
        · have hbase := hrel.2.2.1 k' hk'
          simp only [teardownStep, hc, if_pos, hold]
          rw [dget_dset_ne _ k k' _ hkk]
          exact hbase
      · intro k' n hk'
        by_cases hkk : k' = k
        · subst hkk
          rw [hn0] at hk'
          injection hk' with hk'
          subst hk'
          rcases hcur with hcur | hcur
          · refine Or.inr ?_
            simp only [teardownStep, hc, if_pos, hold]
            rw [hcur]
            simp only [Option.getD_some]
            rw [dget_dset_self]
          · refine Or.inr ?_
            simp only [teardownStep, hc, if_pos, hold]
            rw [hcur]
            simp only [Option.getD_some]
            rw [dget_dset_self]
            rw [addToSet_idem]
        · have hbase := hrel.2.2.2 k' n hk'
          simp only [teardownStep, hc, if_pos, hold]
          rw [dget_dset_ne _ k k' _ hkk]
          exact hbase
  · simp [teardownStep, hc, hrel]

theorem rebuildStep_graphs (changed : List Key) (g0 : SqlStateGraph)
    (st : EmitState) (k : Key)
    (hsync : ∀ k', (dget g0.nodes k').isSome → (dget g0.node_map k').isSome)
    (hrel : toPlanRel g0 st.toG) :
    toPlanRel g0 (rebuildStep changed st k).toG ∧
    (rebuildStep changed st k).fromG = st.fromG := by
  cases hnew : dget st.toG.nodes k with
  | none => simp [rebuildStep, hnew, hrel]
  | some newNode =>
    have hgnodes : dget g0.nodes k = some newNode := by
      rw [← hrel.1]
      exact hnew
    have hmap0 : (dget g0.node_map k).isSome := hsync k (by simp [hgnodes])
    obtain ⟨n0, hn0⟩ := Option.isSome_iff_exists.1 hmap0
    refine ⟨?_, by simp [rebuildStep, hnew]⟩
    have hcur := hrel.2.2.2 k n0 hn0
    refine ⟨?_, ?_, ?_, ?_⟩
    · simpa [rebuildStep, hnew] using hrel.1
    · simpa [rebuildStep, hnew] using hrel.2.1
    · intro k' hk'
      by_cases hkk : k' = k
      · subst hkk
        rw [hn0] at hk'
        exact absurd hk' (by simp)
      · have hbase := hrel.2.2.1 k' hk'
        simp only [rebuildStep, hnew]
        rw [dget_dset_ne _ k k' _ hkk]
        exact hbase
    · intro k' n hk'
      by_cases hkk : k' = k
      · subst hkk
        rw [hn0] at hk'
        injection hk' with hk'
        subst hk'
        rcases hcur with hcur | hcur
        · refine Or.inr ?_
          simp only [rebuildStep, hnew]
          rw [hcur]
          simp only [Option.getD_some]
          rw [dget_dset_self]
        · refine Or.inr ?_
          simp only [rebuildStep, hnew]
          rw [hcur]
          simp only [Option.getD_some]
          rw [dget_dset_self]
          rw [addToSet_idem]
      · have hbase := hrel.2.2.2 k' n hk'
        simp only [rebuildStep, hnew]
        rw [dget_dset_ne _ k k' _ hkk]
        exact hbase

theorem deleteStep_graphs (st : EmitState) (k : Key) :
    (deleteStep st k).fromG = st.fromG ∧ (deleteStep st k).toG = st.toG := by
  cases hold : dget st.fromG.nodes k with
  | none => simp [deleteStep, hold]
  | some old => simp [deleteStep, hold]

theorem foldl_emit_inv (Inv : EmitState → Prop) (f : EmitState → Key → EmitState)
    (hf : ∀ s a, Inv s → Inv (f s a)) :
    ∀ (l : List Key) (s : EmitState), Inv s → Inv (l.foldl f s) := by
  intro l
  induction l with
  | nil => intro s hs; exact hs
  | cons a t ih => intro s hs; exact ih (f s a) (hf s a hs)

/-- Claim C2 (corrected): after a successful planning run over resolved,
in-sync snapshots, both construct maps, both dependency lists and both
`node_map` domains are exactly as before, but the node edge sets are
NOT left untouched: the teardown pass adds each processed key to its
own `from`-graph children set in place, and the rebuild pass adds each
processed key to its own `to`-graph parents set in place (beyond the
growth of `changed_keys` inside the ordering call); no other edge
changes occur. -/
theorem c2_planning_mutations (fromG toG : SqlStateGraph) (r : PlanResult)
    (hsyncF : ∀ k, (dget fromG.nodes k).isSome → (dget fromG.node_map k).isSome)
    (hsyncT : ∀ k, (dget toG.nodes k).isSome → (dget toG.node_map k).isSome)
    (hok : generate_changed_sql fromG toG = .ok r) :
    fromPlanRel fromG r.state.fromG ∧ toPlanRel toG r.state.toG := by
  unfold generate_changed_sql at hok
  cases hsort : sort_sql_changes toG (newKeysOf fromG toG) (changedKeys0 fromG toG) with
  | error e => rw [hsort] at hok; exact absurd hok (by simp)
  | ok sorted =>
    rw [hsort] at hok
    injection hok with hok
    have hInv : ∀ s : EmitState,
        (fromPlanRel fromG s.fromG ∧ toPlanRel toG s.toG) →
        ∀ l1 l2 l3 : List Key,
          (fromPlanRel fromG
              ((l3.foldl deleteStep
                ((l2.foldl (rebuildStep sorted.changed)
                  (l1.foldl (teardownStep sorted.changed) s))))).fromG ∧
            toPlanRel toG
              ((l3.foldl deleteStep
                ((l2.foldl (rebuildStep sorted.changed)
                  (l1.foldl (teardownStep sorted.changed) s))))).toG) := by
      intro s hs l1 l2 l3
      have h1 := foldl_emit_inv
        (fun s => fromPlanRel fromG s.fromG ∧ toPlanRel toG s.toG)
        (teardownStep sorted.changed)
        (fun s a hsa =>
          ⟨(teardownStep_graphs sorted.changed fromG s a hsyncF hsa.1).1,
            (teardownStep_graphs sorted.changed fromG s a hsyncF hsa.1).2 ▸ hsa.2⟩)
        l1 s hs
      have h2 := foldl_emit_inv
        (fun s => fromPlanRel fromG s.fromG ∧ toPlanRel toG s.toG)
        (rebuildStep sorted.changed)
        (fun s a hsa =>
          ⟨(rebuildStep_graphs sorted.changed toG s a hsyncT hsa.2).2 ▸ hsa.1,
            (rebuildStep_graphs sorted.changed toG s a hsyncT hsa.2).1⟩)
        l2 _ h1
      have h3 := foldl_emit_inv
        (fun s => fromPlanRel fromG s.fromG ∧ toPlanRel toG s.toG)
        deleteStep
        (fun s a hsa =>
          ⟨(deleteStep_graphs s a).1 ▸ hsa.1, (deleteStep_graphs s a).2 ▸ hsa.2⟩)
        l3 _ h2
      exact h3
    have := hInv
      { fromG := fromG, toG := toG, ops := [], steps := [], latest := [] }
      ⟨fromPlanRel_refl fromG, toPlanRel_refl toG⟩
      sorted.result sorted.result.reverse (deletedKeysOf fromG toG)
    rw [← hok]
    exact this

/-- C2 example `from` snapshot: one construct, changed in `to`. -/
def c2From : SqlStateGraph :=
  add_node emptyGraph ("app", "v") { sql := .raw "A", reverse_sql := .raw "RA" }

/-- C2 example `to` snapshot. -/
def c2To : SqlStateGraph :=
  add_node emptyGraph ("app", "v") { sql := .raw "B", reverse_sql := .raw "RB" }

/-- The `from`-graph `node_map` after a planning run, when it succeeds. -/
def planFromNodeMap (a b : SqlStateGraph) : Option (List (Key × GNode)) :=
  match generate_changed_sql a b with
  | .ok r => some r.state.fromG.node_map
  | .error _ => Option.none

/-- The `to`-graph `node_map` after a planning run, when it succeeds. -/
def planToNodeMap (a b : SqlStateGraph) : Option (List (Key × GNode)) :=
  match generate_changed_sql a b with
  | .ok r => some r.state.toG.node_map
  | .error _ => Option.none

/-- Claim C2 counterexample: planning the change of the single construct
`("app", "v")` succeeds but leaves both snapshots' node edge sets
changed — the key has been added to its own children set in the `from`
graph and to its own parents set in the `to` graph — so planning does
not leave every node's parent and child sets exactly as they were. -/
theorem c2_counterexample :
    planFromNodeMap c2From c2To =
      some [(("app", "v"),
        { parents := [], children := [("app", "v")] })] ∧
    planFromNodeMap c2From c2To ≠ some c2From.node_map ∧
    planToNodeMap c2From c2To ≠ some c2To.node_map := by
  refine ⟨?_, ?_, ?_⟩ <;> decide

theorem add_node_sync (g : SqlStateGraph)
    (h : ∀ k, (dget g.nodes k).isSome → (dget g.node_map k).isSome)
    (k0 : Key) (it : SqlItemNode) :
    ∀ k, (dget (add_node g k0 it).nodes k).isSome →
      (dget (add_node g k0 it).node_map k).isSome := by
  intro k hk
  by_cases hkk : k = k0
  · subst hkk
    simp [add_node, dget_dset_self]
  · have hne : k ≠ k0 := hkk
    rw [add_node] at hk ⊢
    simp only at hk ⊢
    rw [dget_dset_ne _ k0 k _ hne] at hk
    rw [dget_dset_ne _ k0 k _ hne]
    exact h k hk

theorem emptyGraph_sync :
    ∀ k, (dget emptyGraph.nodes k).isSome → (dget emptyGraph.node_map k).isSome := by
  intro k hk
  exact absurd hk (by simp [emptyGraph, dget])

/-- Witness for C2 at the concrete snapshots above: both snapshots are
in sync, planning succeeds, and the relations describing the precise
mutations hold. -/
theorem c2_witness :
    ∃ r, generate_changed_sql c2From c2To = .ok r ∧
      fromPlanRel c2From r.state.fromG ∧ toPlanRel c2To r.state.toG := by
  cases hok : generate_changed_sql c2From c2To with
  | error e =>
    have h1 : planFromNodeMap c2From c2To = Option.none := by
      unfold planFromNodeMap
      rw [hok]
    have h2 : planFromNodeMap c2From c2To ≠ Option.none := by decide
    exact absurd h1 h2
  | ok r =>
    exact ⟨r, rfl,
      c2_planning_mutations c2From c2To r
        (add_node_sync emptyGraph emptyGraph_sync _ _)
        (add_node_sync emptyGraph emptyGraph_sync _ _) hok⟩

end MigrateSql
